import Mathlib

/-!
Verification of the normalization / structural-similarity / signal-fusion
core of a code-plagiarism screening system.  Python sources are embedded
shallowly: scores are rationals, Python dicts of configuration become
structures, stateful classes become explicit state passing, and external
parsers (Python `ast`, tree-sitter) are abstracted as function parameters.
-/

namespace Plag

/-! ## Embedding of src/config/settings.py -/

/-- Severity classification threshold (settings.py line 24). -/
def SEVERE_THRESHOLD : ℚ := 90

/-- Severity classification threshold (settings.py line 25). -/
def PARTIAL_THRESHOLD : ℚ := 60

/-- Weights for combining similarity signals (settings.py, SIMILARITY_WEIGHTS). -/
structure SimilarityWeights where
  lexical : ℚ
  structural : ℚ
  semantic : ℚ

/-- Default signal weights: lexical 0.15, structural 0.45, semantic 0.40. -/
def SIMILARITY_WEIGHTS : SimilarityWeights :=
  { lexical := 15/100, structural := 45/100, semantic := 40/100 }

/-- STUDENT_SAFE_CONFIG dict (settings.py lines 48-61).  All keys are present
in the source dict, so the various config.get calls with defaults read
these fields. -/
structure StudentSafeConfig where
  penalize_lexical_only : Bool
  lexical_only_reduction : ℚ
  boost_multi_signal_agreement : Bool
  agreement_threshold : ℚ
  agreement_boost : ℚ
  uncertainty_threshold : ℚ
  uncertainty_penalty : ℚ

/-- Default student-safe bias configuration. -/
def STUDENT_SAFE_CONFIG : StudentSafeConfig :=
  { penalize_lexical_only := true
    lexical_only_reduction := 15/100
    boost_multi_signal_agreement := true
    agreement_threshold := 85/100
    agreement_boost := 5/100
    uncertainty_threshold := 5
    uncertainty_penalty := 10/100 }

/-! ## Embedding of PlagiarismScorer._apply_student_safe_bias (fusion/scorer.py) -/

/-- Tags for the entries of the ordered adjustment log.  The Python code
appends formatted message strings; the three possible messages are in
bijection with these tags (see Adjustment.message). -/
inductive Adjustment where
  | lexicalOnly
  | agreement
  | uncertainty
deriving DecidableEq, Repr

/-- Message text appended by the source for each adjustment, at the default
configuration (reduction 15.0, boost 5.0, penalty 10.0). -/
def Adjustment.message : Adjustment → String
  | .lexicalOnly => "Reduced by 15.0% (lexical-only similarity)"
  | .agreement => "Boosted by 5.0% (multi-signal agreement)"
  | .uncertainty => "Reduced by 10.0% (signal uncertainty)"

/-- Population variance of the three signals, i.e. the square of
numpy.std([lexical, structural, semantic]) (np.std uses ddof = 0). -/
def scoreVariance (lexical structural semantic : ℚ) : ℚ :=
  let m := (lexical + structural + semantic) / 3
  ((lexical - m) ^ 2 + (structural - m) ^ 2 + (semantic - m) ^ 2) / 3

/-- Models the comparison np.std(scores) > t over ℚ: since the standard
deviation is the nonnegative square root of the variance v, std > t holds
iff (t < 0) or v > t^2. -/
def stdGt (t v : ℚ) : Bool :=
  if 0 ≤ t then decide (t ^ 2 < v) else true

/-- PlagiarismScorer._apply_student_safe_bias (scorer.py lines 96-140).
Returns (adjusted_score, list_of_adjustments).  The running score is
mutated by each rule in order; every rule condition reads the three
original signal arguments.  Rule 3's outer guard models Python
truthiness of the configured threshold. -/
def apply_student_safe_bias (config : StudentSafeConfig)
    (lexical structural semantic raw_score : ℚ) : ℚ × List Adjustment :=
  let score := raw_score
  let adjustments : List Adjustment := []
  -- 1. Penalize if only lexical similarity is high
  let (score, adjustments) :=
    if config.penalize_lexical_only then
      if lexical > 70 ∧ structural < 50 ∧ semantic < 50 then
        (score - config.lexical_only_reduction * 100,
         adjustments ++ [Adjustment.lexicalOnly])
      else (score, adjustments)
    else (score, adjustments)
  -- 2. Boost if structural and semantic agree
  let (score, adjustments) :=
    if config.boost_multi_signal_agreement then
      let threshold := config.agreement_threshold * 100
      if structural ≥ threshold ∧ semantic ≥ threshold then
        (score + config.agreement_boost * 100,
         adjustments ++ [Adjustment.agreement])
      else (score, adjustments)
    else (score, adjustments)
  -- 3. Reduce if signals are uncertain (high variance)
  let (score, adjustments) :=
    if config.uncertainty_threshold ≠ 0 then
      let variance := scoreVariance lexical structural semantic
      if stdGt config.uncertainty_threshold variance then
        (score - config.uncertainty_penalty * 100,
         adjustments ++ [Adjustment.uncertainty])
      else (score, adjustments)
    else (score, adjustments)
  -- Ensure score is in valid range
  (max 0 (min 100 score), adjustments)

/-- PlagiarismScorer._classify_severity (scorer.py lines 142-157). -/
def classify_severity (score : ℚ) : String :=
  if score ≥ SEVERE_THRESHOLD then "severe"
  else if score ≥ PARTIAL_THRESHOLD then "partial"
  else "clean"

/-! ## Embedding of src/config/weights.py -/

/-- StructuralMethod enum (weights.py lines 12-17). -/
inductive StructuralMethod where
  | TREESITTER
  | AST
  | RKGST
  | HYBRID
deriving DecidableEq, Repr

/-- Default structural method (weights.py line 20). -/
def DEFAULT_STRUCTURAL_METHOD : StructuralMethod := StructuralMethod.TREESITTER

/-- HYBRID_WEIGHTS dict (weights.py lines 27-31). -/
structure HybridWeights where
  treesitter : ℚ
  ast : ℚ
  rkgst : ℚ

/-- Default hybrid weights: treesitter 0.4, ast 0.3, rkgst 0.3. -/
def HYBRID_WEIGHTS : HybridWeights := { treesitter := 4/10, ast := 3/10, rkgst := 3/10 }

/-- AST_FEATURE_WEIGHTS dict (weights.py lines 40-45). -/
structure AstFeatureWeights where
  tree_structure : ℚ
  control_flow : ℚ
  function_calls : ℚ
  data_flow : ℚ

/-- Default AST feature weights: shape 0.40, control-flow 0.30, calls 0.20,
data-flow 0.10. -/
def AST_FEATURE_WEIGHTS : AstFeatureWeights :=
  { tree_structure := 40/100, control_flow := 30/100
    function_calls := 20/100, data_flow := 10/100 }

/-- RKGST_CONFIG dict (weights.py lines 54-59). -/
structure RkgstConfig where
  min_match_length : ℕ
  hash_base : ℤ
  hash_prime : ℤ

/-- Default RK-GST parameters: minimum match 3, hash base 256, prime 101. -/
def RKGST_CONFIG : RkgstConfig := { min_match_length := 3, hash_base := 256, hash_prime := 101 }

/-- Load-time weight validation (weights.py line 33): the configured hybrid
weight set must sum to 1.0 within 0.01.  The assert passes on the default
configuration. -/
lemma hybrid_weights_assert :
    |HYBRID_WEIGHTS.treesitter + HYBRID_WEIGHTS.ast + HYBRID_WEIGHTS.rkgst - 1| < 1/100 := by
  norm_num [HYBRID_WEIGHTS]

/-! ## Embedding of StructuralSimilarity.compute_similarity
(similarity/structural.py lines 360-424).  The two sub-analyzers are
abstracted as score functions (their bodies are embedded separately
below); this combinator dispatches on the configured method. -/

/-- Result dictionary of StructuralSimilarity.compute_similarity. -/
structure StructuralResult where
  score : ℚ
  method : String
  breakdown : Option (ℚ × ℚ)
deriving DecidableEq, Repr

/-- StructuralSimilarity.compute_similarity: the AST and RKGST branches call
one sub-analyzer; every other method (TREESITTER included, since the
if/elif/else only tests AST and RKGST) lands in the hybrid branch, which
combines only the ast and rkgst analyzer scores with HYBRID_WEIGHTS. -/
def StructuralSimilarity.compute_similarity
    (astScore rkgstScore : String → String → ℚ)
    (method : StructuralMethod) (code1 code2 : String) : StructuralResult :=
  if method = StructuralMethod.AST then
    { score := astScore code1 code2, method := "ast", breakdown := none }
  else if method = StructuralMethod.RKGST then
    { score := rkgstScore code1 code2, method := "rkgst", breakdown := none }
  else
    let ast_score := astScore code1 code2
    let rkgst_score := rkgstScore code1 code2
    let final_score := ast_score * HYBRID_WEIGHTS.ast + rkgst_score * HYBRID_WEIGHTS.rkgst
    { score := final_score, method := "hybrid", breakdown := some (ast_score, rkgst_score) }

/-- C1 (code bug): the hybrid combinator drops the node-type (treesitter)
term entirely: it applies only the ast and rkgst weights, which sum to 0.6,
not 1.0 (±0.01), even though the load-time assert validates the full
three-way weight set; a pair on which every enabled sub-method scores 100
receives a hybrid score of 60, not 100. -/
theorem c1_hybrid_drops_treesitter :
    (StructuralSimilarity.compute_similarity
        (fun _ _ => 100) (fun _ _ => 100)
        StructuralMethod.HYBRID "code1" "code2").score = 60 ∧
    (60 : ℚ) ≠ 100 ∧
    HYBRID_WEIGHTS.ast + HYBRID_WEIGHTS.rkgst = 6/10 ∧
    ¬(|HYBRID_WEIGHTS.ast + HYBRID_WEIGHTS.rkgst - 1| < 1/100) ∧
    |HYBRID_WEIGHTS.treesitter + HYBRID_WEIGHTS.ast + HYBRID_WEIGHTS.rkgst - 1| < 1/100 := by
  refine ⟨by simp [StructuralSimilarity.compute_similarity]; norm_num [HYBRID_WEIGHTS],
    by norm_num, by norm_num [HYBRID_WEIGHTS], ?_, hybrid_weights_assert⟩
  have h : HYBRID_WEIGHTS.ast + HYBRID_WEIGHTS.rkgst - 1 = -(2/5) := by
    norm_num [HYBRID_WEIGHTS]
  rw [h, abs_neg, abs_of_nonneg (by norm_num : (0:ℚ) ≤ 2/5)]
  norm_num

/-! ## Embedding of ASTSimilarityAnalyzer (similarity/structural.py lines 27-168).
Python's ast.parse and ast.walk are abstracted: a parse function returning
Option (none models SyntaxError, handled by the try/except) and a walk
function listing every node's data in traversal order. -/

/-- Data of one node as observed by _extract_features: its class name and,
for Call nodes whose func is a Name, the called name. -/
structure WalkNode where
  kind : String
  callTarget : Option String
deriving DecidableEq, Repr

/-- Node classes matched by isinstance(node, (ast.If, ast.For, ast.While,
ast.With)). -/
def CONTROL_FLOW_KINDS : List String := ["If", "For", "While", "With"]

/-- Feature dict built by ASTSimilarityAnalyzer._extract_features. -/
structure Features where
  control_flow : List String
  function_calls : List String
  tree_fingerprint : List String
deriving DecidableEq, Repr

/-- ASTSimilarityAnalyzer._extract_features (structural.py lines 72-94). -/
def extract_features (walk : List WalkNode) : Features :=
  walk.foldl
    (fun f node =>
      if node.kind ∈ CONTROL_FLOW_KINDS then
        { f with control_flow := f.control_flow ++ [node.kind],
                 tree_fingerprint := f.tree_fingerprint ++ [node.kind] }
      else if node.kind = "Call" then
        match node.callTarget with
        | some n => { f with function_calls := f.function_calls ++ [n],
                             tree_fingerprint := f.tree_fingerprint ++ [node.kind] }
        | none => { f with tree_fingerprint := f.tree_fingerprint ++ [node.kind] }
      else { f with tree_fingerprint := f.tree_fingerprint ++ [node.kind] })
    { control_flow := [], function_calls := [], tree_fingerprint := [] }

/-- ASTSimilarityAnalyzer._lcs_length (structural.py lines 156-168): length
of the longest common subsequence; the recurrence here is the source's DP
table dp[i][j] read as a recursion. -/
def lcs_length : List String → List String → ℕ
  | [], _ => 0
  | _ :: _, [] => 0
  | a :: l1, b :: l2 =>
    if a = b then lcs_length l1 l2 + 1
    else max (lcs_length (a :: l1) l2) (lcs_length l1 (b :: l2))
termination_by s1 s2 => s1.length + s2.length
decreasing_by all_goals simp_arith [List.length]

/-- ASTSimilarityAnalyzer._sequence_similarity (structural.py lines 142-154). -/
def sequence_similarity (seq1 seq2 : List String) : ℚ :=
  if seq1 = [] ∨ seq2 = [] then 0
  else
    let lcs := lcs_length seq1 seq2
    let max_length := max seq1.length seq2.length
    if max_length > 0 then (lcs : ℚ) / max_length else 0

/-- ASTSimilarityAnalyzer._tree_edit_distance (structural.py lines 96-106):
sequence similarity over the walks' node-kind fingerprints. -/
def tree_edit_distance (walk1 walk2 : List WalkNode) : ℚ :=
  sequence_similarity (walk1.map WalkNode.kind) (walk2.map WalkNode.kind)

/-- ASTSimilarityAnalyzer._control_flow_similarity (structural.py lines 108-119). -/
def control_flow_similarity (f1 f2 : Features) : ℚ :=
  if f1.control_flow = [] ∧ f2.control_flow = [] then 1
  else if f1.control_flow = [] ∨ f2.control_flow = [] then 0
  else sequence_similarity f1.control_flow f2.control_flow

/-- ASTSimilarityAnalyzer._function_call_similarity (structural.py lines
121-134): Jaccard similarity of the sets of called names. -/
def function_call_similarity (f1 f2 : Features) : ℚ :=
  let calls1 := f1.function_calls.toFinset
  let calls2 := f2.function_calls.toFinset
  if calls1 = ∅ ∧ calls2 = ∅ then 1
  else if calls1 = ∅ ∨ calls2 = ∅ then 0
  else
    let intersection := (calls1 ∩ calls2).card
    let union := (calls1 ∪ calls2).card
    if union > 0 then (intersection : ℚ) / union else 0

/-- ASTSimilarityAnalyzer._data_flow_similarity (structural.py lines
136-140): an explicitly simplified proxy, identical to the fingerprint
sequence similarity. -/
def data_flow_similarity (f1 f2 : Features) : ℚ :=
  sequence_similarity f1.tree_fingerprint f2.tree_fingerprint

/-- ASTSimilarityAnalyzer.compute_similarity (structural.py lines 37-70).
A parse failure on either side is caught (except SyntaxError) and yields
0.0; otherwise the four feature scores are combined with
AST_FEATURE_WEIGHTS and scaled to a percentage. -/
def ASTSimilarityAnalyzer.compute_similarity {Ast : Type}
    (parse : String → Option Ast) (walk : Ast → List WalkNode)
    (code1 code2 : String) : ℚ :=
  match parse code1, parse code2 with
  | some tree1, some tree2 =>
    let features1 := extract_features (walk tree1)
    let features2 := extract_features (walk tree2)
    let final_score :=
      tree_edit_distance (walk tree1) (walk tree2) * AST_FEATURE_WEIGHTS.tree_structure +
      control_flow_similarity features1 features2 * AST_FEATURE_WEIGHTS.control_flow +
      function_call_similarity features1 features2 * AST_FEATURE_WEIGHTS.function_calls +
      data_flow_similarity features1 features2 * AST_FEATURE_WEIGHTS.data_flow
    final_score * 100
  | _, _ => 0

/-! ## Embedding of TreeSitterStructuralAnalyzer.compute_similarity
(similarity/treesitter_structural.py lines 175-208).  The tree-sitter
parser is abstracted as the node-type extraction function: an unsupported
language, a parse error or an internal exception all make
extract_ast_node_types return the empty list. -/

/-- TreeSitterStructuralAnalyzer.compute_similarity: Jaccard similarity of
the distinct node-type sets, 0 when either side's node list is empty. -/
def TreeSitterStructuralAnalyzer.compute_similarity
    (extract_ast_node_types : String → List String) (code1 code2 : String) : ℚ :=
  let nodes1 := extract_ast_node_types code1
  let nodes2 := extract_ast_node_types code2
  if nodes1 = [] ∨ nodes2 = [] then 0
  else
    let set1 := nodes1.toFinset
    let set2 := nodes2.toFinset
    let intersection := (set1 ∩ set2).card
    let union := (set1 ∪ set2).card
    if union = 0 then 0
    else ((intersection : ℚ) / union) * 100

/-- C7: when at least one side fails to parse, the structural sub-methods
score the pair exactly 0 and return normally: the feature syntax-tree
analyzer returns 0 when parse yields none on either side, and the
node-type analyzer returns 0 when either side's extracted node-type list
is empty. -/
theorem c7_parse_failure_scores_zero {Ast : Type}
    (parse : String → Option Ast) (walk : Ast → List WalkNode)
    (extract_ast_node_types : String → List String) (code1 code2 : String) :
    (parse code1 = none ∨ parse code2 = none →
      ASTSimilarityAnalyzer.compute_similarity parse walk code1 code2 = 0) ∧
    (extract_ast_node_types code1 = [] ∨ extract_ast_node_types code2 = [] →
      TreeSitterStructuralAnalyzer.compute_similarity extract_ast_node_types code1 code2 = 0) := by
  constructor
  · intro h
    unfold ASTSimilarityAnalyzer.compute_similarity
    rcases h with h | h <;> rw [h] <;> cases parse code1 <;> cases parse code2 <;> simp_all
  · intro h
    unfold TreeSitterStructuralAnalyzer.compute_similarity
    rcases h with h | h <;> simp [h]

/-- Witness for C7: a concrete pair on which both parsers fail yields 0
from both structural sub-methods. -/
theorem c7_parse_failure_scores_zero_witness :
    ((fun _ : String => (none : Option Unit)) "def f(:" = none ∨
      (fun _ : String => (none : Option Unit)) "x = 1" = none) ∧
    ASTSimilarityAnalyzer.compute_similarity
      (fun _ : String => (none : Option Unit)) (fun _ => []) "def f(:" "x = 1" = 0 ∧
    ((fun _ : String => ([] : List String)) "def f(:" = [] ∨
      (fun _ : String => ([] : List String)) "x = 1" = []) ∧
    TreeSitterStructuralAnalyzer.compute_similarity
      (fun _ : String => ([] : List String)) "def f(:" "x = 1" = 0 :=
  ⟨Or.inl rfl,
   (c7_parse_failure_scores_zero (fun _ => (none : Option Unit)) (fun _ => [])
      (fun _ => ([] : List String)) "def f(:" "x = 1").1 (Or.inl rfl),
   Or.inl rfl,
   (c7_parse_failure_scores_zero (fun _ => (none : Option Unit)) (fun _ => [])
      (fun _ => ([] : List String)) "def f(:" "x = 1").2 (Or.inl rfl)⟩

/-! ## Embedding of RKGSTSimilarityAnalyzer (similarity/structural.py lines
174-354).  Python's built-in hash(token) is implementation- and
seed-dependent, so it is abstracted as a function parameter tokHash; the
algorithm's results do not depend on it because a hash hit is always
confirmed by exact token equality.  The while-True tiling loop is embedded
with explicit fuel tokens1.length + 1, which is enough iterations whenever
min_match_length ≥ 1 since every accepted match permanently marks at least
one fresh position of side 1. -/

/-- A match tile (start1, start2, length). -/
structure GSTMatch where
  start1 : ℕ
  start2 : ℕ
  length : ℕ
deriving DecidableEq, Repr

/-- RKGSTSimilarityAnalyzer._hash_sequence (structural.py lines 331-338). -/
def hash_sequence (tokHash : String → ℤ) (base prime : ℤ) (tokens : List String) : ℤ :=
  tokens.foldl (fun h t => (h * base + tokHash t % prime) % prime) 0

/-- Models any(marked[s : s + len]) (Python slices clip at the list end). -/
def anyMarked (marked : List Bool) (s len : ℕ) : Bool :=
  ((marked.drop s).take len).any id

/-- Inner loop of _rk_find_matches over candidate lengths, in decreasing
order (structural.py lines 302-327): break once a length's side-1 range
touches a marked token; otherwise search tokens2 left to right for the
first unmarked candidate whose hash and tokens equal the pattern's, and
stop at the first (longest) length that found a match. -/
def rk_go (tokHash : String → ℤ) (cfg : RkgstConfig) (tokens1 tokens2 : List String)
    (start1 : ℕ) (marked1 marked2 : List Bool) : List ℕ → List (ℕ × ℕ)
  | [] => []
  | length :: rest =>
    if anyMarked marked1 start1 length then []
    else
      let pattern := (tokens1.drop start1).take length
      let pattern_hash := hash_sequence tokHash cfg.hash_base cfg.hash_prime pattern
      match (List.range (tokens2.length + 1 - length)).find? (fun j =>
          !anyMarked marked2 j length &&
          (pattern_hash == hash_sequence tokHash cfg.hash_base cfg.hash_prime
              ((tokens2.drop j).take length) &&
           pattern == (tokens2.drop j).take length)) with
      | some j => [(j, length)]
      | none => rk_go tokHash cfg tokens1 tokens2 start1 marked1 marked2 rest

/-- RKGSTSimilarityAnalyzer._rk_find_matches (structural.py lines 287-329):
candidate lengths run from max_len = len(tokens1) - start1 down to
min_match_length (Python range semantics: empty when the bound is below
the minimum). -/
def rk_find_matches (tokHash : String → ℤ) (cfg : RkgstConfig)
    (tokens1 tokens2 : List String) (start1 : ℕ)
    (marked1 marked2 : List Bool) : List (ℕ × ℕ) :=
  let max_len := tokens1.length - start1
  let lengths := (List.range' cfg.min_match_length (max_len + 1 - cfg.min_match_length)).reverse
  rk_go tokHash cfg tokens1 tokens2 start1 marked1 marked2 lengths

/-- RKGSTSimilarityAnalyzer._find_longest_match (structural.py lines
259-285): scan all unmarked start positions in tokens1, keeping the
strictly longest candidate found. -/
def find_longest_match (tokHash : String → ℤ) (cfg : RkgstConfig)
    (tokens1 tokens2 : List String) (marked1 marked2 : List Bool) :
    Option (ℕ × ℕ × ℕ) :=
  ((List.range tokens1.length).foldl
    (fun (acc : ℕ × Option (ℕ × ℕ × ℕ)) i =>
      if marked1.getD i false then acc
      else
        (rk_find_matches tokHash cfg tokens1 tokens2 i marked1 marked2).foldl
          (fun acc jl => if jl.2 > acc.1 then (jl.2, some (i, jl.1, jl.2)) else acc)
          acc)
    (0, none)).2

/-- Marks the positions start, ..., start + len - 1 true (the source's
for-loop of index assignments). -/
def markRange (marked : List Bool) (start len : ℕ) : List Bool :=
  (List.range len).foldl (fun m k => m.set (start + k) true) marked

/-- Fueled while-True loop of _greedy_string_tiling (structural.py lines
236-257). -/
def gst_loop (tokHash : String → ℤ) (cfg : RkgstConfig)
    (tokens1 tokens2 : List String) :
    ℕ → List Bool → List Bool → List GSTMatch → List GSTMatch
  | 0, _, _, tileList => tileList
  | fuel + 1, marked1, marked2, tileList =>
    match find_longest_match tokHash cfg tokens1 tokens2 marked1 marked2 with
    | none => tileList
    | some (s1, s2, len) =>
      if len < cfg.min_match_length then tileList
      else
        gst_loop tokHash cfg tokens1 tokens2 fuel
          (markRange marked1 s1 len) (markRange marked2 s2 len)
          (tileList ++ [⟨s1, s2, len⟩])

/-- RKGSTSimilarityAnalyzer._greedy_string_tiling (structural.py lines
226-257). -/
def greedy_string_tiling (tokHash : String → ℤ) (cfg : RkgstConfig)
    (tokens1 tokens2 : List String) : List GSTMatch :=
  gst_loop tokHash cfg tokens1 tokens2 (tokens1.length + 1)
    (List.replicate tokens1.length false) (List.replicate tokens2.length false) []

/-- RKGSTSimilarityAnalyzer._compute_coverage (structural.py lines 340-354). -/
def compute_coverage (tileList : List GSTMatch) (total_length : ℕ) (source : ℕ) : ℚ :=
  if total_length = 0 then 0
  else
    let covered := tileList.foldl
      (fun cov m =>
        let start := if source = 1 then m.start1 else m.start2
        (List.range m.length).foldl
          (fun cov i => if start + i < total_length then cov.set (start + i) true else cov)
          cov)
      (List.replicate total_length false)
    (covered.count true : ℚ) / total_length

/-- RKGSTSimilarityAnalyzer.compute_similarity (structural.py lines
191-213), with the regex tokenizer abstracted as a parameter. -/
def RKGSTSimilarityAnalyzer.compute_similarity
    (tokenizeF : String → List String) (tokHash : String → ℤ) (cfg : RkgstConfig)
    (code1 code2 : String) : ℚ :=
  let tokens1 := tokenizeF code1
  let tokens2 := tokenizeF code2
  if tokens1 = [] ∨ tokens2 = [] then 0
  else
    let tileList := greedy_string_tiling tokHash cfg tokens1 tokens2
    let coverage1 := compute_coverage tileList tokens1.length 1
    let coverage2 := compute_coverage tileList tokens2.length 2
    (coverage1 + coverage2) / 2 * 100

/-! ## Score-range lemmas (claim C8) -/

/-- The LCS length never exceeds either sequence's length. -/
lemma lcs_length_le : ∀ n s1 s2, s1.length + s2.length ≤ n →
    lcs_length s1 s2 ≤ s1.length ∧ lcs_length s1 s2 ≤ s2.length := by
  intro n
  induction n with
  | zero =>
    intro s1 s2 h
    cases s1 <;> cases s2 <;> simp_all [lcs_length]
  | succ n ih =>
    intro s1 s2 h
    match s1, s2 with
    | [], _ => simp [lcs_length]
    | _ :: _, [] => simp [lcs_length]
    | a :: l1, b :: l2 =>
      simp only [List.length_cons] at h
      have h1 := ih l1 l2 (by omega)
      have h2 := ih (a :: l1) l2 (by simp; omega)
      have h3 := ih l1 (b :: l2) (by simp; omega)
      simp only [lcs_length, List.length_cons]
      split_ifs
      · omega
      · simp only [List.length_cons] at h2 h3
        omega

/-- The sequence-similarity (LCS-derived) score lies in [0, 1]. -/
lemma sequence_similarity_bounds (s1 s2 : List String) :
    0 ≤ sequence_similarity s1 s2 ∧ sequence_similarity s1 s2 ≤ 1 := by
  unfold sequence_similarity
  dsimp only
  split_ifs with h1 h2
  · norm_num
  · have hle := lcs_length_le (s1.length + s2.length) s1 s2 le_rfl
    have hmax : lcs_length s1 s2 ≤ max s1.length s2.length := le_max_of_le_left hle.1
    have hpos : (0 : ℚ) < ((max s1.length s2.length : ℕ) : ℚ) := by exact_mod_cast h2
    constructor
    · positivity
    · rw [div_le_one hpos]
      exact_mod_cast hmax
  · norm_num

/-- The control-flow score lies in [0, 1]. -/
lemma control_flow_similarity_bounds (f1 f2 : Features) :
    0 ≤ control_flow_similarity f1 f2 ∧ control_flow_similarity f1 f2 ≤ 1 := by
  unfold control_flow_similarity
  split_ifs <;> first | exact sequence_similarity_bounds _ _ | norm_num

/-- The call-name Jaccard score lies in [0, 1]. -/
lemma function_call_similarity_bounds (f1 f2 : Features) :
    0 ≤ function_call_similarity f1 f2 ∧ function_call_similarity f1 f2 ≤ 1 := by
  unfold function_call_similarity
  dsimp only
  split_ifs with h1 h2 h3
  · norm_num
  · norm_num
  · have hsub : f1.function_calls.toFinset ∩ f2.function_calls.toFinset ⊆
        f1.function_calls.toFinset ∪ f2.function_calls.toFinset :=
      (Finset.inter_subset_left).trans Finset.subset_union_left
    have hcard := Finset.card_le_card hsub
    have hpos : (0 : ℚ) <
        ((f1.function_calls.toFinset ∪ f2.function_calls.toFinset).card : ℕ) := by
      exact_mod_cast h3
    constructor
    · positivity
    · rw [div_le_one hpos]
      exact_mod_cast hcard
  · norm_num

/-- A fold whose step preserves list length preserves list length. -/
lemma foldl_length_eq {α : Type} (f : List Bool → α → List Bool)
    (hf : ∀ c x, (f c x).length = c.length) :
    ∀ (l : List α) (cov : List Bool), (l.foldl f cov).length = cov.length := by
  intro l
  induction l with
  | nil => intro cov; rfl
  | cons x xs ih => intro cov; rw [List.foldl_cons, ih, hf]

/-- The coverage fold keeps the covered array at its initial length. -/
lemma coverage_fold_length (start : GSTMatch → ℕ) (n : ℕ) (tl : List GSTMatch) :
    (tl.foldl (fun cov m => (List.range m.length).foldl
        (fun cov i => if start m + i < n then cov.set (start m + i) true else cov) cov)
      (List.replicate n false)).length = n := by
  have hinner : ∀ (m : GSTMatch) (c : List Bool),
      ((List.range m.length).foldl
        (fun cov i => if start m + i < n then cov.set (start m + i) true else cov)
        c).length = c.length := by
    intro m c
    refine foldl_length_eq _ (fun c' x => ?_) _ c
    split_ifs <;> simp
  rw [foldl_length_eq _ (fun c m => hinner m c) tl (List.replicate n false),
    List.length_replicate]

/-- The coverage fraction lies in [0, 1]. -/
lemma compute_coverage_bounds (tl : List GSTMatch) (n src : ℕ) :
    0 ≤ compute_coverage tl n src ∧ compute_coverage tl n src ≤ 1 := by
  unfold compute_coverage
  dsimp only
  split_ifs with h hsrc
  · norm_num
  all_goals
    have hnpos : (0 : ℚ) < (n : ℚ) := by exact_mod_cast Nat.pos_of_ne_zero h
  all_goals
    have hc : ∀ L : List Bool, L.length = n → L.count true ≤ n := by
      intro L hL
      exact hL ▸ List.count_le_length true L
  all_goals constructor
  · positivity
  · rw [div_le_one hnpos]
    exact_mod_cast hc _ (coverage_fold_length (fun m => m.start1) n tl)
  · positivity
  · rw [div_le_one hnpos]
    exact_mod_cast hc _ (coverage_fold_length (fun m => m.start2) n tl)

/-- The feature syntax-tree analyzer's score lies in [0, 100]. -/
lemma ast_compute_similarity_bounds {Ast : Type}
    (parse : String → Option Ast) (walk : Ast → List WalkNode) (code1 code2 : String) :
    0 ≤ ASTSimilarityAnalyzer.compute_similarity parse walk code1 code2 ∧
    ASTSimilarityAnalyzer.compute_similarity parse walk code1 code2 ≤ 100 := by
  unfold ASTSimilarityAnalyzer.compute_similarity
  cases parse code1 with
  | none => norm_num
  | some t1 =>
    cases parse code2 with
    | none => norm_num
    | some t2 =>
      simp only
      have hts := sequence_similarity_bounds ((walk t1).map WalkNode.kind)
        ((walk t2).map WalkNode.kind)
      have hcf := control_flow_similarity_bounds (extract_features (walk t1))
        (extract_features (walk t2))
      have hfc := function_call_similarity_bounds (extract_features (walk t1))
        (extract_features (walk t2))
      have hdf := sequence_similarity_bounds (extract_features (walk t1)).tree_fingerprint
        (extract_features (walk t2)).tree_fingerprint
      unfold tree_edit_distance data_flow_similarity AST_FEATURE_WEIGHTS
      constructor <;> nlinarith [hts.1, hts.2, hcf.1, hcf.2, hfc.1, hfc.2, hdf.1, hdf.2]

/-- The node-type Jaccard score lies in [0, 100]. -/
lemma ts_compute_similarity_bounds (extract : String → List String) (code1 code2 : String) :
    0 ≤ TreeSitterStructuralAnalyzer.compute_similarity extract code1 code2 ∧
    TreeSitterStructuralAnalyzer.compute_similarity extract code1 code2 ≤ 100 := by
  unfold TreeSitterStructuralAnalyzer.compute_similarity
  dsimp only
  split_ifs with h1 h2
  · norm_num
  · norm_num
  · set a := (extract code1).toFinset with ha
    set b := (extract code2).toFinset with hb
    have hsub : a ∩ b ⊆ a ∪ b := (Finset.inter_subset_left).trans Finset.subset_union_left
    have hcard := Finset.card_le_card hsub
    have hpos : (0 : ℚ) < ((a ∪ b).card : ℕ) := by
      exact_mod_cast Nat.pos_of_ne_zero h2
    have hdiv : ((a ∩ b).card : ℚ) / ((a ∪ b).card : ℚ) ≤ 1 := by
      rw [div_le_one hpos]
      exact_mod_cast hcard
    constructor
    · positivity
    · nlinarith [hdiv]

/-- The GST coverage-based score lies in [0, 100]. -/
lemma rkgst_compute_similarity_bounds (tokenizeF : String → List String)
    (tokHash : String → ℤ) (cfg : RkgstConfig) (code1 code2 : String) :
    0 ≤ RKGSTSimilarityAnalyzer.compute_similarity tokenizeF tokHash cfg code1 code2 ∧
    RKGSTSimilarityAnalyzer.compute_similarity tokenizeF tokHash cfg code1 code2 ≤ 100 := by
  unfold RKGSTSimilarityAnalyzer.compute_similarity
  dsimp only
  split_ifs with h
  · norm_num
  · have h1 := compute_coverage_bounds
      (greedy_string_tiling tokHash cfg (tokenizeF code1) (tokenizeF code2))
      (tokenizeF code1).length 1
    have h2 := compute_coverage_bounds
      (greedy_string_tiling tokHash cfg (tokenizeF code1) (tokenizeF code2))
      (tokenizeF code2).length 2
    constructor <;> nlinarith [h1.1, h1.2, h2.1, h2.2]

/-- The fused score is clamped to [0, 100] after all bias adjustments, for
any configuration and any raw score. -/
lemma bias_clamp_bounds (config : StudentSafeConfig) (l s se raw : ℚ) :
    0 ≤ (apply_student_safe_bias config l s se raw).1 ∧
    (apply_student_safe_bias config l s se raw).1 ≤ 100 := by
  unfold apply_student_safe_bias
  refine ⟨le_max_left 0 _, max_le (by norm_num) (min_le_left 100 _)⟩

/-- C8: every coverage-, Jaccard-, and LCS-derived score lies in [0, 100]
(the raw fractional scores lie in [0, 1] before the ×100 scaling), and the
fused final score lies in [0, 100] even when all bias adjustments are
applied in sequence, since the result is clamped. -/
theorem c8_all_scores_bounded {Ast : Type}
    (parse : String → Option Ast) (walk : Ast → List WalkNode)
    (extract tokenizeF : String → List String) (tokHash : String → ℤ)
    (cfg : RkgstConfig) (config : StudentSafeConfig) (code1 code2 : String)
    (s1 s2 : List String) (f1 f2 : Features) (tl : List GSTMatch) (n src : ℕ)
    (l s se raw : ℚ) :
    (0 ≤ sequence_similarity s1 s2 ∧ sequence_similarity s1 s2 ≤ 1) ∧
    (0 ≤ function_call_similarity f1 f2 ∧ function_call_similarity f1 f2 ≤ 1) ∧
    (0 ≤ compute_coverage tl n src ∧ compute_coverage tl n src ≤ 1) ∧
    (0 ≤ ASTSimilarityAnalyzer.compute_similarity parse walk code1 code2 ∧
      ASTSimilarityAnalyzer.compute_similarity parse walk code1 code2 ≤ 100) ∧
    (0 ≤ TreeSitterStructuralAnalyzer.compute_similarity extract code1 code2 ∧
      TreeSitterStructuralAnalyzer.compute_similarity extract code1 code2 ≤ 100) ∧
    (0 ≤ RKGSTSimilarityAnalyzer.compute_similarity tokenizeF tokHash cfg code1 code2 ∧
      RKGSTSimilarityAnalyzer.compute_similarity tokenizeF tokHash cfg code1 code2 ≤ 100) ∧
    (0 ≤ (apply_student_safe_bias config l s se raw).1 ∧
      (apply_student_safe_bias config l s se raw).1 ≤ 100) :=
  ⟨sequence_similarity_bounds s1 s2,
   function_call_similarity_bounds f1 f2,
   compute_coverage_bounds tl n src,
   ast_compute_similarity_bounds parse walk code1 code2,
   ts_compute_similarity_bounds extract code1 code2,
   rkgst_compute_similarity_bounds tokenizeF tokHash cfg code1 code2,
   bias_clamp_bounds config l s se raw⟩

/-! ## Embedding of PlagiarismScorer.analyze_all (fusion/scorer.py lines
159-217).  The per-pair scoring pipeline self.compute_similarity (with the
batch's language and the normalize flag already applied) is abstracted as
the compute parameter returning the result-dict fields that analyze_all
reads. -/

/-- A submission record (the fields analyze_all reads). -/
structure Submission where
  submission_id : String
  code : String
deriving DecidableEq, Repr

/-- Signal breakdown of a pair result. -/
structure Breakdown where
  lexical : ℚ
  structural : ℚ
  semantic : ℚ
deriving DecidableEq, Repr

/-- Fields of the compute_similarity result dict read by analyze_all. -/
structure FusionResult where
  final_score : ℚ
  breakdown : Breakdown
  severity : String
  adjustments : List Adjustment
deriving DecidableEq, Repr

/-- One output row of analyze_all; best_result = None yields the defaults
empty breakdown / "clean" / empty adjustment list. -/
structure AnalysisRow where
  submission_id : String
  similarity_score : ℚ
  most_similar_to : Option String
  breakdown : Option Breakdown
  severity : String
  adjustments : List Adjustment
deriving DecidableEq, Repr

/-- PlagiarismScorer.analyze_all: for each submission (by index), compare
against every other submission (by index), track the strictly best score,
and append one row per submission. -/
def analyze_all (compute : String → String → FusionResult)
    (submissions : List Submission) : List AnalysisRow :=
  submissions.enum.map (fun p =>
    let i := p.1
    let sub := p.2
    let best := submissions.enum.foldl
      (fun (acc : ℚ × Option String × Option FusionResult) q =>
        if i = q.1 then acc
        else
          let result := compute sub.code q.2.code
          if result.final_score > acc.1 then
            (result.final_score, some q.2.submission_id, some result)
          else acc)
      (0, none, none)
    { submission_id := sub.submission_id
      similarity_score := best.1
      most_similar_to := best.2.1
      breakdown := best.2.2.map FusionResult.breakdown
      severity := match best.2.2 with | some r => r.severity | none => "clean"
      adjustments := match best.2.2 with | some r => r.adjustments | none => [] })

/-- C2 counterexample: a batch of N = 2 submissions yields 2 result rows,
not N·(N−1)/2 = 1: analyze_all emits one row per submission, not one row
per unordered pair. -/
theorem c2_counterexample :
    (analyze_all
        (fun _ _ => { final_score := 0, breakdown := ⟨0, 0, 0⟩,
                      severity := "clean", adjustments := [] })
        [⟨"s001", "code a"⟩, ⟨"s002", "code b"⟩]).length = 2 ∧
    (2 : ℕ) ≠ 2 * (2 - 1) / 2 := by
  constructor
  · rfl
  · decide

/-- C2 (amended): for every batch the all-pairs analysis produces exactly
one result row per submission — N rows, in submission order — regardless
of how any pair's computation behaves (a degraded pair still leaves its
submissions' rows in place). -/
theorem c2_one_row_per_submission (compute : String → String → FusionResult)
    (submissions : List Submission) :
    (analyze_all compute submissions).length = submissions.length ∧
    (analyze_all compute submissions).map AnalysisRow.submission_id =
      submissions.map Submission.submission_id := by
  constructor
  · rw [analyze_all, List.length_map, List.enum_length]
  · conv_rhs => rw [← List.enum_map_snd submissions, List.map_map]
    rw [analyze_all, List.map_map]
    exact List.map_congr_left (fun p _ => rfl)

/-! ## GST invariants (claim C6) -/

/-- A generic fold invariant. -/
lemma foldl_invariant {α β : Type} (P : β → Prop) (f : β → α → β) :
    ∀ (l : List α) (b : β), P b → (∀ acc x, x ∈ l → P acc → P (f acc x)) → P (l.foldl f b) := by
  intro l
  induction l with
  | nil => intro b hb _; exact hb
  | cons x xs ih =>
    intro b hb hf
    exact ih (f b x) (hf b x (List.mem_cons_self x xs) hb)
      (fun acc y hy hacc => hf acc y (List.mem_cons_of_mem x hy) hacc)

/-- anyMarked is false exactly when every position of the window reads
false (positions beyond the array read the default false). -/
lemma anyMarked_eq_false (m : List Bool) (s len : ℕ) :
    anyMarked m s len = false ↔ ∀ k, k < len → m.getD (s + k) false = false := by
  unfold anyMarked
  induction m generalizing s len with
  | nil =>
    simp [List.getD]
  | cons b bs ih =>
    cases s with
    | succ s' =>
      have h : ∀ k, (b :: bs).getD (s' + 1 + k) false = bs.getD (s' + k) false := by
        intro k
        have : s' + 1 + k = (s' + k) + 1 := by omega
        rw [this, List.getD_cons_succ]
      simp only [List.drop_succ_cons, h]
      exact ih s' len
    | zero =>
      cases len with
      | zero => simp
      | succ len' =>
        simp only [List.drop_zero, List.take_succ_cons, List.any_cons, id,
          Bool.or_eq_false_iff]
        have hbs := ih 0 len'
        simp only [List.drop_zero] at hbs
        constructor
        · rintro ⟨hb, hrest⟩ k hk
          cases k with
          | zero => simpa using hb
          | succ k' =>
            rw [show (0 : ℕ) + (k' + 1) = k' + 1 by omega, List.getD_cons_succ]
            have := (hbs.mp hrest) k' (by omega)
            simpa using this
        · intro hall
          refine ⟨by simpa using hall 0 (by omega), hbs.mpr ?_⟩
          intro k hk
          have := hall (k + 1) (by omega)
          rw [show (0 : ℕ) + (k + 1) = k + 1 by omega, List.getD_cons_succ] at this
          simpa using this

/-- getD after set. -/
lemma getD_set (l : List Bool) (j i : ℕ) (b : Bool) :
    (l.set j b).getD i false =
      if j = i ∧ j < l.length then b else l.getD i false := by
  induction l generalizing j i with
  | nil => simp
  | cons x xs ih =>
    cases j with
    | zero =>
      cases i with
      | zero => simp
      | succ i' => simp [List.getD_cons_succ]
    | succ j' =>
      cases i with
      | zero => simp
      | succ i' =>
        simp only [List.set_cons_succ, List.getD_cons_succ, List.length_cons]
        rw [ih j' i']
        by_cases h : j' = i' ∧ j' < xs.length
        · rw [if_pos h, if_pos ⟨by omega, by omega⟩]
        · rw [if_neg h, if_neg (by omega)]

/-- Setting an index to true at a currently-false in-bounds position
increments the count of true entries. -/
lemma count_set_true (l : List Bool) (j : ℕ) (hj : j < l.length)
    (hf : l.getD j false = false) :
    (l.set j true).count true = l.count true + 1 := by
  induction l generalizing j with
  | nil => simp at hj
  | cons x xs ih =>
    cases j with
    | zero =>
      have hx : x = false := by simpa using hf
      subst hx
      simp [List.count_cons]
    | succ j' =>
      simp only [List.set_cons_succ, List.count_cons]
      rw [ih j' (by simpa using hj) (by simpa [List.getD_cons_succ] using hf)]
      omega

/-- Unfolding markRange one step at the top end. -/
lemma markRange_succ (m : List Bool) (s len : ℕ) :
    markRange m s (len + 1) = (markRange m s len).set (s + len) true := by
  unfold markRange
  rw [List.range_succ, List.foldl_append]
  rfl

/-- markRange preserves the array length. -/
lemma markRange_length (m : List Bool) (s len : ℕ) :
    (markRange m s len).length = m.length := by
  induction len with
  | zero => rfl
  | succ n ih => rw [markRange_succ, List.length_set, ih]

/-- Pointwise description of markRange. -/
lemma getD_markRange (m : List Bool) (s len i : ℕ) :
    (markRange m s len).getD i false =
      if s ≤ i ∧ i < s + len ∧ i < m.length then true else m.getD i false := by
  induction len with
  | zero =>
    rw [if_neg (by omega)]
    rfl
  | succ n ih =>
    rw [markRange_succ, getD_set, markRange_length, ih]
    by_cases h1 : s + n = i ∧ s + n < m.length
    · rw [if_pos h1, if_pos (by omega)]
    · by_cases h2 : s ≤ i ∧ i < s + n ∧ i < m.length
      · rw [if_neg h1, if_pos h2, if_pos (by omega)]
      · rw [if_neg h1, if_neg h2, if_neg (by omega)]

/-- Marking a fresh in-bounds window adds exactly len true entries. -/
lemma count_markRange (m : List Bool) (s len : ℕ)
    (hfree : ∀ k, k < len → m.getD (s + k) false = false)
    (hb : s + len ≤ m.length) :
    (markRange m s len).count true = m.count true + len := by
  induction len with
  | zero => rfl
  | succ n ih =>
    have hfresh : (markRange m s n).getD (s + n) false = false := by
      rw [getD_markRange, if_neg (by omega)]
      exact hfree n (by omega)
    rw [markRange_succ, count_set_true _ _ (by rw [markRange_length]; omega) hfresh,
      ih (fun k hk => hfree k (by omega)) (by omega)]
    omega

/-- Positions already true stay true after markRange. -/
lemma markRange_monotone (m : List Bool) (s len i : ℕ)
    (h : m.getD i false = true) : (markRange m s len).getD i false = true := by
  rw [getD_markRange]
  split_ifs with hc
  · rfl
  · exact h

/-- Every match returned by rk_go has a length drawn from the supplied
candidate list, an unmarked pattern window on side 1, an unmarked
candidate window on side 2, and an in-bounds side-2 window. -/
lemma rk_go_spec (tokHash : String → ℤ) (cfg : RkgstConfig)
    (t1 t2 : List String) (start1 : ℕ) (m1 m2 : List Bool) :
    ∀ (lens : List ℕ) (j len : ℕ),
      (j, len) ∈ rk_go tokHash cfg t1 t2 start1 m1 m2 lens →
      len ∈ lens ∧ anyMarked m1 start1 len = false ∧
      anyMarked m2 j len = false ∧ j + len ≤ t2.length := by
  intro lens
  induction lens with
  | nil => intro j len h; simp [rk_go] at h
  | cons L rest ih =>
    intro j len h
    simp only [rk_go] at h
    split_ifs at h with hmk
    · simp at h
    · rcases hf : (List.range (t2.length + 1 - L)).find? (fun j =>
          !anyMarked m2 j L &&
          (hash_sequence tokHash cfg.hash_base cfg.hash_prime ((t1.drop start1).take L) ==
              hash_sequence tokHash cfg.hash_base cfg.hash_prime ((t2.drop j).take L) &&
           (t1.drop start1).take L == (t2.drop j).take L)) with _ | j0
      · rw [hf] at h
        obtain ⟨hmem, h2, h3, h4⟩ := ih j len h
        exact ⟨List.mem_cons_of_mem L hmem, h2, h3, h4⟩
      · rw [hf] at h
        simp only [List.mem_singleton, Prod.mk.injEq] at h
        obtain ⟨rfl, rfl⟩ := h
        have hp := List.find?_some hf
        simp only [Bool.and_eq_true, Bool.not_eq_true'] at hp
        have hjmem := List.mem_of_find?_eq_some hf
        rw [List.mem_range] at hjmem
        exact ⟨List.mem_cons_self _ _, Bool.not_eq_true _ ▸ hmk, hp.1, by omega⟩

/-- Every match from _rk_find_matches is at least min_match_length long,
in bounds on both sides, and covers only unmarked positions. -/
lemma rk_find_matches_spec (tokHash : String → ℤ) (cfg : RkgstConfig)
    (t1 t2 : List String) (start1 : ℕ) (m1 m2 : List Bool)
    (hmin : 1 ≤ cfg.min_match_length) (j len : ℕ)
    (h : (j, len) ∈ rk_find_matches tokHash cfg t1 t2 start1 m1 m2) :
    cfg.min_match_length ≤ len ∧ start1 + len ≤ t1.length ∧
    anyMarked m1 start1 len = false ∧ anyMarked m2 j len = false ∧
    j + len ≤ t2.length := by
  unfold rk_find_matches at h
  obtain ⟨hmem, h2, h3, h4⟩ := rk_go_spec tokHash cfg t1 t2 start1 m1 m2 _ j len h
  rw [List.mem_reverse, List.mem_range'_1] at hmem
  exact ⟨hmem.1, by omega, h2, h3, h4⟩

/-- Every match reported by _find_longest_match satisfies the freshness
and bounds properties. -/
lemma find_longest_match_spec (tokHash : String → ℤ) (cfg : RkgstConfig)
    (t1 t2 : List String) (m1 m2 : List Bool)
    (hmin : 1 ≤ cfg.min_match_length) (i j len : ℕ)
    (h : find_longest_match tokHash cfg t1 t2 m1 m2 = some (i, j, len)) :
    cfg.min_match_length ≤ len ∧ i + len ≤ t1.length ∧
    anyMarked m1 i len = false ∧ anyMarked m2 j len = false ∧
    j + len ≤ t2.length := by
  unfold find_longest_match at h
  have hstep : ∀ (acc : ℕ × Option (ℕ × ℕ × ℕ)) (x : ℕ), x ∈ List.range t1.length →
      (∀ a b c, acc.2 = some (a, b, c) →
        cfg.min_match_length ≤ c ∧ a + c ≤ t1.length ∧
        anyMarked m1 a c = false ∧ anyMarked m2 b c = false ∧ b + c ≤ t2.length) →
      (∀ a b c,
        (if m1.getD x false then acc
         else (rk_find_matches tokHash cfg t1 t2 x m1 m2).foldl
           (fun acc jl => if jl.2 > acc.1 then (jl.2, some (x, jl.1, jl.2)) else acc)
           acc).2 = some (a, b, c) →
        cfg.min_match_length ≤ c ∧ a + c ≤ t1.length ∧
        anyMarked m1 a c = false ∧ anyMarked m2 b c = false ∧ b + c ≤ t2.length) := by
    intro acc x _ hacc
    split_ifs with hm
    · exact hacc
    · refine foldl_invariant
        (fun (acc : ℕ × Option (ℕ × ℕ × ℕ)) => ∀ a b c, acc.2 = some (a, b, c) →
          cfg.min_match_length ≤ c ∧ a + c ≤ t1.length ∧
          anyMarked m1 a c = false ∧ anyMarked m2 b c = false ∧ b + c ≤ t2.length)
        _ _ acc hacc ?_
      intro acc' jl hjl hacc'
      dsimp only
      split_ifs with hgt
      · intro a b c habc
        simp only [Option.some.injEq, Prod.mk.injEq] at habc
        have hspec := rk_find_matches_spec tokHash cfg t1 t2 x m1 m2 hmin jl.1 jl.2
          (by simpa using hjl)
        obtain ⟨rfl, rfl, rfl⟩ := habc
        exact ⟨hspec.1, hspec.2.1, hspec.2.2.1, hspec.2.2.2.1, hspec.2.2.2.2⟩
      · exact hacc'
  have hinv := foldl_invariant
    (fun (acc : ℕ × Option (ℕ × ℕ × ℕ)) => ∀ a b c, acc.2 = some (a, b, c) →
      cfg.min_match_length ≤ c ∧ a + c ≤ t1.length ∧
      anyMarked m1 a c = false ∧ anyMarked m2 b c = false ∧ b + c ≤ t2.length)
    (fun acc x =>
      if m1.getD x false then acc
      else (rk_find_matches tokHash cfg t1 t2 x m1 m2).foldl
        (fun acc jl => if jl.2 > acc.1 then (jl.2, some (x, jl.1, jl.2)) else acc) acc)
    (List.range t1.length) (0, none) (by simp) hstep
  exact hinv i j len h

/-- Two concrete index windows on the sides of the tiling. -/
def RangeDisj (s1 l1 s2 l2 : ℕ) : Prop := s1 + l1 ≤ s2 ∨ s2 + l2 ≤ s1

/-- Non-overlap of two tiles on both sides. -/
def TileDisj (a b : GSTMatch) : Prop :=
  RangeDisj a.start1 a.length b.start1 b.length ∧
  RangeDisj a.start2 a.length b.start2 b.length

instance : ∀ a b : GSTMatch, Decidable (TileDisj a b) := fun a b => by
  unfold TileDisj RangeDisj
  infer_instance

/-- Total number of token positions claimed by a list of tiles, per side. -/
def sumLens (tl : List GSTMatch) : ℕ := (tl.map GSTMatch.length).sum

/-- A fully-marked window and a fully-unmarked window of the same array
cannot overlap. -/
lemma disj_of_marked_free (f : ℕ → Bool) (sa la sb lb : ℕ)
    (ha : ∀ k, k < la → f (sa + k) = true) (hb : ∀ k, k < lb → f (sb + k) = false)
    (hla : 1 ≤ la) (hlb : 1 ≤ lb) : sa + la ≤ sb ∨ sb + lb ≤ sa := by
  by_contra hcon
  push_neg at hcon
  obtain ⟨h1, h2⟩ := hcon
  rcases le_total sa sb with hc | hc
  · have hta := ha (sb - sa) (by omega)
    have htb := hb 0 (by omega)
    rw [show sa + (sb - sa) = sb + 0 by omega] at hta
    rw [hta] at htb
    exact Bool.true_eq_false.mp htb
  · have hta := ha 0 (by omega)
    have htb := hb (sa - sb) (by omega)
    rw [show sb + (sa - sb) = sa + 0 by omega] at htb
    rw [hta] at htb
    exact Bool.true_eq_false.mp htb

/-- Main invariant of the fueled tiling loop: starting from consistent
state (array lengths matching the token lists, every accepted tile marked,
count of marks equal to the claimed totals, tiles pairwise disjoint), the
final tile list is pairwise disjoint on both sides, every tile is long
enough and in bounds, and the claimed totals are bounded by the sides'
lengths. -/
lemma gst_loop_invariant (tokHash : String → ℤ) (cfg : RkgstConfig)
    (t1 t2 : List String) (hmin : 1 ≤ cfg.min_match_length) :
    ∀ (fuel : ℕ) (m1 m2 : List Bool) (acc : List GSTMatch),
      m1.length = t1.length → m2.length = t2.length →
      (∀ mt ∈ acc, cfg.min_match_length ≤ mt.length ∧
        mt.start1 + mt.length ≤ t1.length ∧ mt.start2 + mt.length ≤ t2.length ∧
        (∀ k, k < mt.length → m1.getD (mt.start1 + k) false = true) ∧
        (∀ k, k < mt.length → m2.getD (mt.start2 + k) false = true)) →
      m1.count true = sumLens acc → m2.count true = sumLens acc →
      acc.Pairwise TileDisj →
      (∀ mt ∈ gst_loop tokHash cfg t1 t2 fuel m1 m2 acc,
        cfg.min_match_length ≤ mt.length ∧
        mt.start1 + mt.length ≤ t1.length ∧ mt.start2 + mt.length ≤ t2.length) ∧
      (gst_loop tokHash cfg t1 t2 fuel m1 m2 acc).Pairwise TileDisj ∧
      sumLens (gst_loop tokHash cfg t1 t2 fuel m1 m2 acc) ≤ t1.length ∧
      sumLens (gst_loop tokHash cfg t1 t2 fuel m1 m2 acc) ≤ t2.length := by
  intro fuel
  induction fuel with
  | zero =>
    intro m1 m2 acc hl1 hl2 hall hc1 hc2 hdisj
    simp only [gst_loop]
    refine ⟨fun mt hmt => ?_, hdisj, ?_, ?_⟩
    · have := hall mt hmt
      exact ⟨this.1, this.2.1, this.2.2.1⟩
    · rw [← hc1, ← hl1]
      exact List.count_le_length true m1
    · rw [← hc2, ← hl2]
      exact List.count_le_length true m2
  | succ fuel ih =>
    intro m1 m2 acc hl1 hl2 hall hc1 hc2 hdisj
    simp only [gst_loop]
    rcases hfl : find_longest_match tokHash cfg t1 t2 m1 m2 with _ | ⟨s1, s2, len⟩
    · refine ⟨fun mt hmt => ?_, hdisj, ?_, ?_⟩
      · have := hall mt hmt
        exact ⟨this.1, this.2.1, this.2.2.1⟩
      · rw [← hc1, ← hl1]
        exact List.count_le_length true m1
      · rw [← hc2, ← hl2]
        exact List.count_le_length true m2
    · obtain ⟨hle, hb1, hf1, hf2, hb2⟩ :=
        find_longest_match_spec tokHash cfg t1 t2 m1 m2 hmin s1 s2 len hfl
      have hfree1 := (anyMarked_eq_false m1 s1 len).mp hf1
      have hfree2 := (anyMarked_eq_false m2 s2 len).mp hf2
      dsimp only
      split_ifs with hsmall
      · refine ⟨fun mt hmt => ?_, hdisj, ?_, ?_⟩
        · have := hall mt hmt
          exact ⟨this.1, this.2.1, this.2.2.1⟩
        · rw [← hc1, ← hl1]
          exact List.count_le_length true m1
        · rw [← hc2, ← hl2]
          exact List.count_le_length true m2
      · refine ih (markRange m1 s1 len) (markRange m2 s2 len)
          (acc ++ [⟨s1, s2, len⟩]) ?_ ?_ ?_ ?_ ?_ ?_
        · rw [markRange_length]; exact hl1
        · rw [markRange_length]; exact hl2
        · intro mt hmt
          rcases List.mem_append.mp hmt with hold | hnew
          · obtain ⟨q1, q2, q3, q4, q5⟩ := hall mt hold
            exact ⟨q1, q2, q3,
              fun k hk => markRange_monotone m1 s1 len _ (q4 k hk),
              fun k hk => markRange_monotone m2 s2 len _ (q5 k hk)⟩
          · rw [List.mem_singleton] at hnew
            subst hnew
            refine ⟨?_, ?_, ?_, fun k hk => ?_, fun k hk => ?_⟩
            · show cfg.min_match_length ≤ len
              omega
            · exact hb1
            · exact hb2
            · have hk' : k < len := hk
              show (markRange m1 s1 len).getD (s1 + k) false = true
              rw [getD_markRange, if_pos ⟨by omega, by omega, by omega⟩]
            · have hk' : k < len := hk
              show (markRange m2 s2 len).getD (s2 + k) false = true
              rw [getD_markRange, if_pos ⟨by omega, by omega, by omega⟩]
        · rw [count_markRange m1 s1 len hfree1 (by omega)]
          simp only [sumLens, List.map_append, List.sum_append, List.map_cons,
            List.map_nil, List.sum_cons, List.sum_nil]
          rw [← sumLens, hc1, sumLens]
          omega
        · rw [count_markRange m2 s2 len hfree2 (by omega)]
          simp only [sumLens, List.map_append, List.sum_append, List.map_cons,
            List.map_nil, List.sum_cons, List.sum_nil]
          rw [← sumLens, hc2, sumLens]
          omega
        · rw [List.pairwise_append]
          refine ⟨hdisj, List.pairwise_singleton _ _, ?_⟩
          intro a ha b hb
          rw [List.mem_singleton] at hb
          subst hb
          obtain ⟨q1, q2, q3, q4, q5⟩ := hall a ha
          constructor
          · exact disj_of_marked_free (fun p => m1.getD p false) a.start1 a.length
              s1 len q4 hfree1 (by omega) (by omega)
          · exact disj_of_marked_free (fun p => m2.getD p false) a.start2 a.length
              s2 len q5 hfree2 (by omega) (by omega)

/-- C6: for every pair of token sequences (and any token hash), greedy
string tiling yields matches that are pairwise non-overlapping on both
sides, every accepted match is at least min_match_length long and in
bounds, and the total number of claimed positions per side is at most that
side's length. -/
theorem c6_gst_matches_disjoint (tokHash : String → ℤ) (cfg : RkgstConfig)
    (hmin : 1 ≤ cfg.min_match_length) (tokens1 tokens2 : List String) :
    (∀ mt ∈ greedy_string_tiling tokHash cfg tokens1 tokens2,
      cfg.min_match_length ≤ mt.length ∧
      mt.start1 + mt.length ≤ tokens1.length ∧
      mt.start2 + mt.length ≤ tokens2.length) ∧
    (greedy_string_tiling tokHash cfg tokens1 tokens2).Pairwise TileDisj ∧
    sumLens (greedy_string_tiling tokHash cfg tokens1 tokens2) ≤ tokens1.length ∧
    sumLens (greedy_string_tiling tokHash cfg tokens1 tokens2) ≤ tokens2.length := by
  unfold greedy_string_tiling
  exact gst_loop_invariant tokHash cfg tokens1 tokens2 hmin (tokens1.length + 1)
    (List.replicate tokens1.length false) (List.replicate tokens2.length false) []
    (List.length_replicate _ _) (List.length_replicate _ _)
    (by simp)
    (by show _ = sumLens []
        rw [show sumLens [] = 0 from rfl, List.count_eq_zero]
        simp [List.mem_replicate])
    (by show _ = sumLens []
        rw [show sumLens [] = 0 from rfl, List.count_eq_zero]
        simp [List.mem_replicate])
    List.Pairwise.nil

/-- Witness for C6 at the default configuration (minimum match length 3)
on a concrete pair of token sequences. -/
theorem c6_gst_matches_disjoint_witness :
    1 ≤ RKGST_CONFIG.min_match_length ∧
    ((∀ mt ∈ greedy_string_tiling (fun _ => 0) RKGST_CONFIG
        ["a", "b", "c", "d"] ["a", "b", "c", "e"],
      RKGST_CONFIG.min_match_length ≤ mt.length ∧
      mt.start1 + mt.length ≤ (["a", "b", "c", "d"] : List String).length ∧
      mt.start2 + mt.length ≤ (["a", "b", "c", "e"] : List String).length) ∧
    (greedy_string_tiling (fun _ => 0) RKGST_CONFIG
        ["a", "b", "c", "d"] ["a", "b", "c", "e"]).Pairwise TileDisj ∧
    sumLens (greedy_string_tiling (fun _ => 0) RKGST_CONFIG
        ["a", "b", "c", "d"] ["a", "b", "c", "e"]) ≤
      (["a", "b", "c", "d"] : List String).length ∧
    sumLens (greedy_string_tiling (fun _ => 0) RKGST_CONFIG
        ["a", "b", "c", "d"] ["a", "b", "c", "e"]) ≤
      (["a", "b", "c", "e"] : List String).length) :=
  ⟨by decide,
   c6_gst_matches_disjoint (fun _ => 0) RKGST_CONFIG (by decide)
     ["a", "b", "c", "d"] ["a", "b", "c", "e"]⟩

/-! ## Embedding of TokenNormalizer (normalization/token_normalizer.py) and
BaseNormalizer state (normalization/base.py).  Strings are processed as
character lists; the regular expressions of the source are implemented as
explicit scanners with the same left-to-right, leftmost-alternative
semantics.  One modelling restriction: the digit class \d is modelled as
the ASCII digits 0-9 (Python's unicode digit categories beyond ASCII are
not modelled), and Python's str.lower is modelled by Char.toLower. -/

/-- Character class [A-Za-z_] (identifier start). -/
def isIdentStartCh (c : Char) : Bool :=
  (decide (65 ≤ c.toNat) && decide (c.toNat ≤ 90)) ||
  (decide (97 ≤ c.toNat) && decide (c.toNat ≤ 122)) || c == '_'

/-- Character class \d (ASCII digits). -/
def isDigitCh (c : Char) : Bool := decide (48 ≤ c.toNat) && decide (c.toNat ≤ 57)

/-- Character class [A-Za-z0-9_]. -/
def isIdentCh (c : Char) : Bool := isIdentStartCh c || isDigitCh c

/-- Unicode whitespace codepoints matched by \s in Python str regexes. -/
def PY_SPACE_CODES : List ℕ :=
  [9, 10, 11, 12, 13, 28, 29, 30, 31, 32, 133, 160, 5760,
   8192, 8193, 8194, 8195, 8196, 8197, 8198, 8199, 8200, 8201, 8202,
   8232, 8233, 8239, 8287, 12288]

/-- Whitespace test for \s. -/
def isPySpaceCh (c : Char) : Bool := PY_SPACE_CODES.contains c.toNat

/-- The character of a decimal digit. -/
def digitCh (d : ℕ) : Char :=
  if d = 0 then '0' else if d = 1 then '1' else if d = 2 then '2'
  else if d = 3 then '3' else if d = 4 then '4' else if d = 5 then '5'
  else if d = 6 then '6' else if d = 7 then '7' else if d = 8 then '8' else '9'

/-- Decimal digit characters of a natural number, most significant first,
as structural recursion on a fuel bound (any fuel above the argument
gives the same digits). -/
def natDigitsAux : ℕ → ℕ → List Char
  | 0, n => [digitCh (n % 10)]
  | fuel + 1, n =>
    if n < 10 then [digitCh n]
    else natDigitsAux fuel (n / 10) ++ [digitCh (n % 10)]

/-- Decimal digit characters of a natural number, most significant first
(models Python's str(n) for a nonnegative integer). -/
def natDigits (n : ℕ) : List Char := natDigitsAux n n

/-- Decimal rendering of a natural number. -/
def natRepr (n : ℕ) : String := ⟨natDigits n⟩

/-- UTF-8 bytes of one character. -/
def charUtf8 (c : Char) : List ℕ :=
  let n := c.toNat
  if n < 128 then [n]
  else if n < 2048 then [192 + n / 64, 128 + n % 64]
  else if n < 65536 then [224 + n / 4096, 128 + (n / 64) % 64, 128 + n % 64]
  else [240 + n / 262144, 128 + (n / 4096) % 64, 128 + (n / 64) % 64, 128 + n % 64]

/-- UTF-8 encoding of a character list (code.encode("utf-8")). -/
def utf8Bytes (cs : List Char) : List ℕ := cs.flatMap charUtf8

/-- Value of an ASCII hex digit byte. -/
def hexVal (b : ℕ) : Option ℕ :=
  if 48 ≤ b ∧ b ≤ 57 then some (b - 48)
  else if 97 ≤ b ∧ b ≤ 102 then some (b - 87)
  else if 65 ≤ b ∧ b ≤ 70 then some (b - 55)
  else none

/-- Reads exactly n hex digit bytes, returning their value and the rest. -/
def readHex : ℕ → List ℕ → Option (ℕ × List ℕ)
  | 0, bs => some (0, bs)
  | k + 1, [] => (fun _ => none) k
  | k + 1, b :: bs =>
    match hexVal b with
    | some v =>
      match readHex k bs with
      | some (w, rest) => some (v * 16 ^ k + w, rest)
      | none => none
    | none => none

/-- Octal digit test. -/
def isOctalByte (b : ℕ) : Bool := decide (48 ≤ b) && decide (b ≤ 55)

/-- Reads up to two further octal digit bytes after a first one of value v. -/
def readOct2 (v : ℕ) : List ℕ → ℕ × List ℕ
  | [] => (v, [])
  | b :: bs =>
    if isOctalByte b then
      match bs with
      | [] => (v * 8 + (b - 48), [])
      | b2 :: bs2 =>
        if isOctalByte b2 then (v * 64 + (b - 48) * 8 + (b2 - 48), bs2)
        else (v * 8 + (b - 48), b2 :: bs2)
    else (v, b :: bs)

/-- Byte-level decoder of the unicode_escape codec (bytes below 128 are
ASCII, bytes 128-255 decode as latin-1).  Returns none on the decode
errors the codec raises: a trailing backslash, malformed \x / \u / \U
escapes, codepoints above 0x10FFFF, and \N named escapes (the Unicode name
database is not modelled; lone-surrogate escapes decode to NUL here since
the embedding's characters exclude surrogates).  The fuel argument is one
more than the byte count, which every step preserves. -/
def decodeUEAux : ℕ → List ℕ → Option (List Char)
  | 0, _ => none
  | _ + 1, [] => some []
  | fuel + 1, b :: bs =>
    if b ≠ 92 then (decodeUEAux fuel bs).map (fun cs => Char.ofNat b :: cs)
    else
      match bs with
      | [] => none
      | e :: rest =>
        if e = 10 then decodeUEAux fuel rest
        else if e = 92 then (decodeUEAux fuel rest).map (fun cs => '\\' :: cs)
        else if e = 39 then (decodeUEAux fuel rest).map (fun cs => '\'' :: cs)
        else if e = 34 then (decodeUEAux fuel rest).map (fun cs => '"' :: cs)
        else if e = 97 then (decodeUEAux fuel rest).map (fun cs => Char.ofNat 7 :: cs)
        else if e = 98 then (decodeUEAux fuel rest).map (fun cs => Char.ofNat 8 :: cs)
        else if e = 102 then (decodeUEAux fuel rest).map (fun cs => Char.ofNat 12 :: cs)
        else if e = 110 then (decodeUEAux fuel rest).map (fun cs => Char.ofNat 10 :: cs)
        else if e = 114 then (decodeUEAux fuel rest).map (fun cs => Char.ofNat 13 :: cs)
        else if e = 116 then (decodeUEAux fuel rest).map (fun cs => Char.ofNat 9 :: cs)
        else if e = 118 then (decodeUEAux fuel rest).map (fun cs => Char.ofNat 11 :: cs)
        else if isOctalByte e then
          let (v, rest') := readOct2 (e - 48) rest
          (decodeUEAux fuel rest').map (fun cs => Char.ofNat v :: cs)
        else if e = 120 then
          match readHex 2 rest with
          | some (v, rest') => (decodeUEAux fuel rest').map (fun cs => Char.ofNat v :: cs)
          | none => none
        else if e = 117 then
          match readHex 4 rest with
          | some (v, rest') => (decodeUEAux fuel rest').map (fun cs => Char.ofNat v :: cs)
          | none => none
        else if e = 85 then
          match readHex 8 rest with
          | some (v, rest') =>
            if v ≤ 1114111 then
              (decodeUEAux fuel rest').map (fun cs => Char.ofNat v :: cs)
            else none
          | none => none
        else if e = 78 then none
        else (decodeUEAux fuel rest).map (fun cs => '\\' :: Char.ofNat e :: cs)

/-- The try/except around code.encode("utf-8").decode("unicode_escape")
(token_normalizer.py lines 81-84): the decoded text, or the input
unchanged when decoding fails. -/
def unicodeUnescape (cs : List Char) : List Char :=
  let bs := utf8Bytes cs
  match decodeUEAux (bs.length + 1) bs with
  | some out => out
  | none => cs

/-- dropWhile never lengthens a list. -/
lemma dropWhile_len_le {α : Type} (p : α → Bool) :
    ∀ l : List α, (l.dropWhile p).length ≤ l.length := by
  intro l
  induction l with
  | nil => simp
  | cons x xs ih =>
    rw [List.dropWhile_cons]
    split_ifs <;> simp <;> omega

/-- takeWhile never lengthens a list. -/
lemma takeWhile_len_le {α : Type} (p : α → Bool) :
    ∀ l : List α, (l.takeWhile p).length ≤ l.length := by
  intro l
  induction l with
  | nil => simp
  | cons x xs ih =>
    rw [List.takeWhile_cons]
    split_ifs <;> simp <;> omega

/-- Fueled scanner for re.sub(r"#.*", "", code); every step consumes at
least one character, so any fuel above the length is enough. -/
def stripHashAux : ℕ → List Char → List Char
  | 0, cs => cs
  | _ + 1, [] => []
  | fuel + 1, c :: rest =>
    if c = '#' then stripHashAux fuel (rest.dropWhile (fun d => !(d == '\n')))
    else c :: stripHashAux fuel rest

/-- re.sub(r"#.*", "", code): drop from each # to the end of its line
(the dot does not match a newline). -/
def stripHash (cs : List Char) : List Char := stripHashAux (cs.length + 1) cs

/-- Fueled scanner for re.sub(r"//.*", "", code). -/
def stripSlashSlashAux : ℕ → List Char → List Char
  | 0, cs => cs
  | _ + 1, [] => []
  | fuel + 1, a :: rest =>
    if a = '/' then
      match rest with
      | b :: rest2 =>
        if b = '/' then stripSlashSlashAux fuel (rest2.dropWhile (fun d => !(d == '\n')))
        else a :: stripSlashSlashAux fuel (b :: rest2)
      | [] => [a]
    else a :: stripSlashSlashAux fuel rest

/-- re.sub(r"//.*", "", code): drop from each // to the end of its line. -/
def stripSlashSlash (cs : List Char) : List Char := stripSlashSlashAux (cs.length + 1) cs

/-- Scans for the earliest */ and returns the suffix after it. -/
def findClose : List Char → Option (List Char)
  | [] => none
  | a :: rest =>
    match rest with
    | b :: rest2 => if a = '*' ∧ b = '/' then some rest2 else findClose (b :: rest2)
    | [] => none

/-- findClose only returns strict suffixes. -/
lemma findClose_length : ∀ (cs rest : List Char), findClose cs = some rest →
    rest.length < cs.length := by
  intro cs
  induction cs with
  | nil => intro rest h; simp [findClose] at h
  | cons a tail ih =>
    intro rest h
    cases tail with
    | nil => simp [findClose] at h
    | cons b rest2 =>
      simp only [findClose] at h
      split_ifs at h with hab
      · simp only [Option.some.injEq] at h
        subst h
        simp only [List.length_cons]
        omega
      · have := ih rest h
        simp only [List.length_cons] at this ⊢
        omega

/-- Fueled scanner for re.sub(r"/\*.*?\*/", "", code, flags=re.DOTALL). -/
def stripBlockAux : ℕ → List Char → List Char
  | 0, cs => cs
  | _ + 1, [] => []
  | fuel + 1, a :: rest =>
    if a = '/' then
      match rest with
      | b :: rest2 =>
        if b = '*' then
          match findClose rest2 with
          | some rest3 => stripBlockAux fuel rest3
          | none => a :: stripBlockAux fuel (b :: rest2)
        else a :: stripBlockAux fuel (b :: rest2)
      | [] => [a]
    else a :: stripBlockAux fuel rest

/-- re.sub(r"/\*.*?\*/", "", code, flags=re.DOTALL): remove each
non-greedy block comment; an unterminated opener stays. -/
def stripBlock (cs : List Char) : List Char := stripBlockAux (cs.length + 1) cs

/-- TokenNormalizer.remove_comments (token_normalizer.py lines 142-161):
the three comment substitutions, in source order. -/
def remove_comments (cs : List Char) : List Char :=
  stripBlock (stripSlashSlash (stripHash cs))

/-- Fueled scanner for re.sub(r"[ \t]+", " ", code). -/
def collapseSpaceTabAux : ℕ → List Char → List Char
  | 0, cs => cs
  | _ + 1, [] => []
  | fuel + 1, c :: rest =>
    if c = ' ' ∨ c = '\t' then
      ' ' :: collapseSpaceTabAux fuel (rest.dropWhile (fun d => d == ' ' || d == '\t'))
    else c :: collapseSpaceTabAux fuel rest

/-- re.sub(r"[ \t]+", " ", code): collapse runs of spaces and tabs. -/
def collapseSpaceTab (cs : List Char) : List Char := collapseSpaceTabAux (cs.length + 1) cs

/-- Index of the last newline of a character list, if any. -/
def lastNL : List Char → Option ℕ
  | [] => none
  | c :: rest =>
    match lastNL rest with
    | some i => some (i + 1)
    | none => if c = '\n' then some 0 else none

/-- lastNL indexes into the list. -/
lemma lastNL_lt : ∀ (cs : List Char) (i : ℕ), lastNL cs = some i → i < cs.length := by
  intro cs
  induction cs with
  | nil => intro i h; simp [lastNL] at h
  | cons c rest ih =>
    intro i h
    rw [lastNL] at h
    rcases hr : lastNL rest with _ | j
    · rw [hr] at h
      split_ifs at h with hc
      simp only [Option.some.injEq] at h
      subst h
      simp
    · rw [hr] at h
      simp only [Option.some.injEq] at h
      subst h
      have := ih j hr
      simpa using Nat.succ_lt_succ this

/-- Fueled scanner for re.sub(r"\n\s*\n+", "\n", code). -/
def collapseNewlinesAux : ℕ → List Char → List Char
  | 0, cs => cs
  | _ + 1, [] => []
  | fuel + 1, c :: rest =>
    if c = '\n' then
      match lastNL (rest.takeWhile isPySpaceCh) with
      | some i => '\n' :: collapseNewlinesAux fuel (rest.drop (i + 1))
      | none => '\n' :: collapseNewlinesAux fuel rest
    else c :: collapseNewlinesAux fuel rest

/-- re.sub(r"\n\s*\n+", "\n", code): a greedy match starting at a newline
runs through the last newline of the maximal whitespace run that follows
(there must be at least one); it is replaced by a single newline and
scanning resumes after the match. -/
def collapseNewlines (cs : List Char) : List Char := collapseNewlinesAux (cs.length + 1) cs

/-- The thirteen two-character operator tokens of the token regex, in
source alternation order: == != <= >= += -= *= /= %= && || << >>. -/
def MULTIOPS_CH : List (List Char) :=
  [['=', '='], ['!', '='], ['<', '='], ['>', '='], ['+', '='], ['-', '='],
   ['*', '='], ['/', '='], ['%', '='], ['&', '&'], ['|', '|'], ['<', '<'], ['>', '>']]

/-- The two-character operator alternatives, tried in source order (their
match conditions are mutually exclusive, so ordered lookup is the
alternation). -/
def matchOp2 : List Char → Option (List Char × List Char)
  | a :: b :: rest =>
    match MULTIOPS_CH.find? (fun op => op == [a, b]) with
    | some op => some (op, rest)
    | none => none
  | _ => none

/-- The single-character punctuation class of the token regex. -/
def SINGLE_PUNCT : List Char :=
  ['%', '+', '-', '*', '/', '<', '>', '=', '(', ')', '\x7b', '\x7d',
   '[', ']', ':', ';', ',', '.']

/-- matchOp2 consumes exactly its two-character operator. -/
lemma matchOp2_spec : ∀ (cs t r : List Char), matchOp2 cs = some (t, r) →
    cs = t ++ r ∧ t ∈ MULTIOPS_CH ∧ t.length = 2 := by
  intro cs t r h
  match cs with
  | [] => simp [matchOp2] at h
  | [a] => simp [matchOp2] at h
  | a :: b :: rest =>
    rw [matchOp2] at h
    rcases hf : MULTIOPS_CH.find? (fun op => op == [a, b]) with _ | op
    · rw [hf] at h
      simp at h
    · rw [hf] at h
      simp only [Option.some.injEq, Prod.mk.injEq] at h
      obtain ⟨rfl, rfl⟩ := h
      have hop := List.find?_some hf
      have hmem := List.mem_of_find?_eq_some hf
      rw [beq_iff_eq] at hop
      subst hop
      exact ⟨rfl, hmem, rfl⟩

/-- One step of the token regex at the current position, trying the
alternatives in source order: identifier [A-Za-z_][A-Za-z0-9_]*, number
\d+\.?\d* (greedy: digits, an optional dot, more digits), the
two-character operators, then single punctuation; none when no
alternative matches at this position. -/
def matchToken (cs : List Char) : Option (List Char × List Char) :=
  match cs with
  | [] => none
  | c :: rest =>
    if isIdentStartCh c then
      some (c :: rest.takeWhile isIdentCh, rest.dropWhile isIdentCh)
    else if isDigitCh c then
      let ds := rest.takeWhile isDigitCh
      match rest.dropWhile isDigitCh with
      | d :: r2 =>
        if d == '.' then
          some (c :: ds ++ '.' :: r2.takeWhile isDigitCh, r2.dropWhile isDigitCh)
        else some (c :: ds, d :: r2)
      | [] => some (c :: ds, [])
    else
      match matchOp2 cs with
      | some r => some r
      | none => if SINGLE_PUNCT.contains c then some ([c], rest) else none

/-- A matched token leaves a strictly shorter remainder. -/
lemma matchToken_rest_lt : ∀ (cs t r : List Char), matchToken cs = some (t, r) →
    r.length < cs.length := by
  intro cs t r h
  match cs with
  | [] => simp [matchToken] at h
  | c :: rest =>
    rw [matchToken] at h
    split_ifs at h with h1 h2 h3
    · simp only [Option.some.injEq, Prod.mk.injEq] at h
      have := dropWhile_len_le isIdentCh rest
      rw [← h.2]
      simp only [List.length_cons]
      omega
    · have hlen : (rest.dropWhile isDigitCh).length ≤ rest.length :=
        dropWhile_len_le _ _
      rcases hr1 : rest.dropWhile isDigitCh with _ | ⟨d, r2⟩
      · rw [hr1] at h
        dsimp only at h
        simp only [Option.some.injEq, Prod.mk.injEq] at h
        rw [← h.2]
        simp
      · rw [hr1] at h
        dsimp only at h
        rw [hr1] at hlen
        split_ifs at h with hd
        · simp only [Option.some.injEq, Prod.mk.injEq] at h
          have := dropWhile_len_le isDigitCh r2
          rw [← h.2]
          simp only [List.length_cons] at hlen ⊢
          omega
        · simp only [Option.some.injEq, Prod.mk.injEq] at h
          rw [← h.2]
          simp only [List.length_cons] at hlen ⊢
          omega
    · rcases hop : matchOp2 (c :: rest) with _ | p
      · rw [hop] at h
        dsimp only at h
        simp only [Option.some.injEq, Prod.mk.injEq] at h
        rw [← h.2]
        simp
      · rw [hop] at h
        dsimp only at h
        simp only [Option.some.injEq] at h
        subst h
        obtain ⟨heq, -, hlen2⟩ := matchOp2_spec (c :: rest) t r hop
        have : (c :: rest).length = t.length + r.length := by
          rw [heq, List.length_append]
        omega
    · rcases hop : matchOp2 (c :: rest) with _ | p
      · rw [hop] at h
        dsimp only at h
        exact absurd h (by simp)
      · rw [hop] at h
        dsimp only at h
        simp only [Option.some.injEq] at h
        subst h
        obtain ⟨heq, -, hlen2⟩ := matchOp2_spec (c :: rest) t r hop
        have : (c :: rest).length = t.length + r.length := by
          rw [heq, List.length_append]
        omega

/-- Fueled scanner for re.findall of the token regex: take a token when an
alternative matches, skip one character otherwise. -/
def tokenizeCharsAux : ℕ → List Char → List (List Char)
  | 0, _ => []
  | _ + 1, [] => []
  | fuel + 1, c :: rest =>
    match matchToken (c :: rest) with
    | some (t, r) => t :: tokenizeCharsAux fuel r
    | none => tokenizeCharsAux fuel rest

/-- re.findall of the token regex. -/
def tokenizeChars (cs : List Char) : List (List Char) :=
  tokenizeCharsAux (cs.length + 1) cs

/-- TokenNormalizer.KEYWORDS (token_normalizer.py lines 20-35). -/
def KEYWORDS : List String :=
  ["if", "else", "for", "while", "return", "break", "continue", "def",
   "import", "from", "class", "lambda", "elif", "in", "is", "not", "and",
   "or", "try", "except", "finally", "with", "as", "pass", "raise",
   "assert", "yield", "del", "global", "nonlocal", "public", "private",
   "protected", "static", "void", "const", "virtual", "override", "new",
   "delete", "this", "super", "extends", "implements", "interface",
   "package", "throws", "catch", "switch", "case", "default", "do",
   "goto", "sizeof", "typedef", "struct", "union", "enum", "namespace",
   "using", "template"]

/-- TokenNormalizer.TYPES (token_normalizer.py lines 38-43). -/
def TYPES : List String :=
  ["int", "float", "double", "char", "bool", "void", "string", "str",
   "long", "short", "unsigned", "signed", "byte", "list", "dict", "set",
   "tuple", "array", "vector", "map"]

/-- Mutable normalizer state of BaseNormalizer (base.py lines 34-38): the
identifier map (a Python dict, i.e. an insertion-ordered association
list) and the counters. -/
structure NormState where
  identifier_map : List (String × String)
  var_counter : ℕ
  func_counter : ℕ
  class_counter : ℕ
deriving DecidableEq, Repr

/-- BaseNormalizer.reset_counters (base.py lines 114-119). -/
def reset_counters (_st : NormState) : NormState :=
  { identifier_map := [], var_counter := 0, func_counter := 0, class_counter := 0 }

/-- The slot label f"VAR{n}". -/
def mkVarLabel (n : ℕ) : String := "VAR" ++ natRepr n

/-- The number pattern ^\d+\.?\d*$ of _normalize_token (ASCII digits). -/
def numberMatch (cs : List Char) : Bool :=
  match cs with
  | [] => false
  | c :: rest =>
    isDigitCh c &&
    (let r1 := (c :: rest).dropWhile isDigitCh
     match r1 with
     | [] => true
     | d :: r2 => d == '.' && r2.all isDigitCh)

/-- The identifier pattern ^[A-Za-z_][A-Za-z0-9_]*$ of _normalize_token. -/
def identMatch (cs : List Char) : Bool :=
  match cs with
  | [] => false
  | c :: rest => isIdentStartCh c && rest.all isIdentCh

/-- token.lower(), char by char (see the module comment on Char.toLower). -/
def strLower (s : String) : String := String.mk (s.data.map Char.toLower)

/-- TokenNormalizer._normalize_token (token_normalizer.py lines 108-140):
keywords lowercase, type keywords to TYPE, numbers to NUM, identifiers to
per-run slots VAR1, VAR2, ... assigned at first appearance, everything
else unchanged. -/
def normalize_token (st : NormState) (token : String) : String × NormState :=
  let token_lower := strLower token
  if token_lower ∈ KEYWORDS then (token_lower, st)
  else if token_lower ∈ TYPES then ("TYPE", st)
  else if numberMatch token.data then ("NUM", st)
  else if identMatch token.data then
    match st.identifier_map.lookup token with
    | some v => (v, st)
    | none =>
      let n := st.var_counter + 1
      (mkVarLabel n,
       { st with var_counter := n,
                 identifier_map := st.identifier_map ++ [(token, mkVarLabel n)] })
  else (token, st)

/-- The text-preparation steps of _normalize_to_tokens followed by
tokenization (token_normalizer.py lines 80-97): escape decoding, comment
removal, whitespace normalization, then the token regex scan. -/
def rawTokens (code : String) : List String :=
  (tokenizeChars
    (collapseNewlines (collapseSpaceTab (remove_comments (unicodeUnescape code.data))))).map
    (fun cs => String.mk cs)

/-- Token-classification loop of _normalize_to_tokens (token_normalizer.py
lines 99-106): normalize each token in order, skipping empty results. -/
def slotifyTokens (st : NormState) (toks : List String) : List String × NormState :=
  toks.foldl
    (fun acc token =>
      let r := normalize_token acc.2 token
      if r.1 ≠ "" then (acc.1 ++ [r.1], r.2) else (acc.1, r.2))
    ([], st)

/-- TokenNormalizer._normalize_to_tokens (token_normalizer.py lines 70-106). -/
def normalize_to_tokens (st : NormState) (code : String) : List String × NormState :=
  slotifyTokens st (rawTokens code)

/-- " ".join(tokens). -/
def spaceJoinChars : List (List Char) → List Char
  | [] => []
  | [t] => t
  | t :: ts => t ++ ' ' :: spaceJoinChars ts

/-- TokenNormalizer.normalize (token_normalizer.py lines 48-68): reset the
per-run state, classify the tokens, join with single spaces.  (The
isinstance guard for non-string input does not arise here: inputs are
strings.) -/
def TokenNormalizer.normalize (st : NormState) (code : String) : String × NormState :=
  let st0 := reset_counters st
  let r := normalize_to_tokens st0 code
  (String.mk (spaceJoinChars (r.1.map String.data)), r.2)

/-! ## Properties of the normalizer (claims C3 and C9) -/

/-- Slot-label shape: VAR followed by at least one digit. -/
def isSlotTok (t : String) : Bool :=
  match t.data with
  | 'V' :: 'A' :: 'R' :: ds => !ds.isEmpty && ds.all isDigitCh
  | _ => false

/-- The labels VAR1, ..., VARn in order. -/
def varLabels (n : ℕ) : List String := (List.range' 1 n).map mkVarLabel

/-- First occurrences of a list's elements not already seen, in order. -/
def firstOcc (seen : List String) : List String → List String
  | [] => []
  | x :: xs => if x ∈ seen then firstOcc seen xs else x :: firstOcc (x :: seen) xs

/-- Membership test of _normalize_token's identifier branch, as a predicate
on the token (state-independent). -/
def IdentSlotted (t : String) : Prop :=
  strLower t ∉ KEYWORDS ∧ strLower t ∉ TYPES ∧
  numberMatch t.data = false ∧ identMatch t.data = true

instance : DecidablePred IdentSlotted := fun t => by
  unfold IdentSlotted
  infer_instance

/-- digitCh is injective below 10. -/
lemma digitCh_inj : ∀ d1 < 10, ∀ d2 < 10, digitCh d1 = digitCh d2 → d1 = d2 := by decide

/-- digitCh yields digit characters. -/
lemma digitCh_isDigit : ∀ d < 10, isDigitCh (digitCh d) = true := by decide

/-- natDigitsAux does not depend on the fuel once it covers the argument. -/
lemma natDigitsAux_irrel : ∀ (f1 f2 n : ℕ), n ≤ f1 → n ≤ f2 →
    natDigitsAux f1 n = natDigitsAux f2 n := by
  intro f1
  induction f1 with
  | zero =>
    intro f2 n h1 _
    have hn : n = 0 := by omega
    subst hn
    cases f2 <;> simp [natDigitsAux]
  | succ f1 ih =>
    intro f2 n h1 h2
    cases f2 with
    | zero =>
      have hn : n = 0 := by omega
      subst hn
      simp [natDigitsAux]
    | succ f2 =>
      simp only [natDigitsAux]
      split_ifs with hlt
      · rfl
      · rw [ih f2 (n / 10) (by omega) (by omega)]

/-- The recursion equation of natDigits. -/
lemma natDigits_eq (n : ℕ) :
    natDigits n = if n < 10 then [digitCh n]
      else natDigits (n / 10) ++ [digitCh (n % 10)] := by
  unfold natDigits
  split_ifs with hlt
  · cases n with
    | zero => simp [natDigitsAux]
    | succ m => simp [natDigitsAux, hlt]
  · cases n with
    | zero => omega
    | succ m =>
      simp only [natDigitsAux]
      rw [if_neg hlt, natDigitsAux_irrel m ((m + 1) / 10) ((m + 1) / 10) (by omega) le_rfl]

/-- natDigits is nonempty and consists of digit characters. -/
lemma natDigits_digits (n : ℕ) :
    natDigits n ≠ [] ∧ (natDigits n).all isDigitCh = true := by
  induction n using Nat.strong_induction_on with
  | _ n ih =>
    rw [natDigits_eq]
    split_ifs with hlt
    · exact ⟨by simp, by simp [digitCh_isDigit n hlt]⟩
    · have hrec := ih (n / 10) (by omega)
      refine ⟨by simp, ?_⟩
      simp only [List.all_append, List.all_cons, List.all_nil, Bool.and_eq_true]
      exact ⟨hrec.2, by simp [digitCh_isDigit (n % 10) (by omega)], trivial⟩

/-- natDigits is injective. -/
lemma natDigits_inj : ∀ (m : ℕ), ∀ n, natDigits m = natDigits n → m = n := by
  intro m
  induction m using Nat.strong_induction_on with
  | _ m ih =>
    intro n h
    rw [natDigits_eq m, natDigits_eq n] at h
    split_ifs at h with h1 h2 h2
    · simp only [List.cons.injEq, and_true] at h
      exact digitCh_inj m h1 n h2 h
    · exfalso
      rcases hnd : natDigits (n / 10) with _ | ⟨a, l⟩
      · exact (natDigits_digits (n / 10)).1 hnd
      · have hlen := congrArg List.length h
        rw [hnd] at hlen
        simp at hlen
    · exfalso
      rcases hnd : natDigits (m / 10) with _ | ⟨a, l⟩
      · exact (natDigits_digits (m / 10)).1 hnd
      · have hlen := congrArg List.length h
        rw [hnd] at hlen
        simp at hlen
    · have hinj := List.append_inj' h (by simp)
      simp only [List.cons.injEq, and_true] at hinj
      have hm := ih (m / 10) (by omega) (n / 10) hinj.1
      have hd := digitCh_inj (m % 10) (by omega) (n % 10) (by omega) hinj.2
      omega

/-- mkVarLabel is injective. -/
lemma mkVarLabel_inj (a b : ℕ) (h : mkVarLabel a = mkVarLabel b) : a = b := by
  unfold mkVarLabel natRepr at h
  have hd := congrArg String.data h
  rw [String.data_append, String.data_append] at hd
  have h2 : natDigits a = natDigits b := List.append_cancel_left hd
  exact natDigits_inj a b h2

/-- Slot labels have slot shape. -/
lemma isSlotTok_mkVarLabel (n : ℕ) : isSlotTok (mkVarLabel n) = true := by
  unfold isSlotTok mkVarLabel natRepr
  have hd : ("VAR" ++ String.mk (natDigits n)).data = 'V' :: 'A' :: 'R' :: natDigits n := by
    rw [String.data_append]
    rfl
  rw [hd]
  obtain ⟨hne, hall⟩ := natDigits_digits n
  rcases hnd : natDigits n with _ | ⟨a, l⟩
  · exact absurd hnd hne
  · rw [hnd] at hall
    simp_all

/-- takeWhile/dropWhile on an all-true prefix followed by a blocked rest. -/
lemma takeWhile_all_append (p : Char → Bool) :
    ∀ (cs rest : List Char), (∀ c ∈ cs, p c = true) →
    (∀ r rs, rest = r :: rs → p r = false) →
    (cs ++ rest).takeWhile p = cs ∧ (cs ++ rest).dropWhile p = rest := by
  intro cs
  induction cs with
  | nil =>
    intro rest _ hrest
    cases rest with
    | nil => simp
    | cons r rest' =>
      simp only [List.nil_append]
      rw [List.takeWhile_cons, List.dropWhile_cons]
      simp [hrest r rest' rfl]
  | cons c cs' ih =>
    intro rest hall hrest
    have hc : p c = true := hall c (List.mem_cons_self _ _)
    have := ih rest (fun x hx => hall x (List.mem_cons_of_mem _ hx)) hrest
    simp only [List.cons_append]
    rw [List.takeWhile_cons, List.dropWhile_cons]
    simp [hc, this.1, this.2]

/-- A token is followed by nothing or by the joining space. -/
def SepRest (rest : List Char) : Prop := rest = [] ∨ ∃ r', rest = ' ' :: r'

/-- The raw token shapes the token regex can produce, used for the
round-trip argument (the number shape cannot occur among normalized
output tokens, so it is absent here). -/
def GoodTokCh (t : List Char) : Prop :=
  identMatch t = true ∨ t ∈ MULTIOPS_CH ∨
  (∃ c, t = [c] ∧ SINGLE_PUNCT.contains c = true)

/-- Punctuation facts used in the scanner case analysis. -/
lemma single_punct_facts : ∀ c ∈ SINGLE_PUNCT,
    isIdentStartCh c = false ∧ isDigitCh c = false := by decide

/-- The scanner consumes exactly an identifier-shaped token before a
separator. -/
lemma matchToken_ident (t rest : List Char) (hid : identMatch t = true)
    (hsep : SepRest rest) : matchToken (t ++ rest) = some (t, rest) := by
  match t, hid with
  | c :: cs, hid =>
    rw [identMatch] at hid
    simp only [Bool.and_eq_true, List.all_eq_true] at hid
    have hblock : ∀ r rs, rest = r :: rs → isIdentCh r = false := by
      rcases hsep with rfl | ⟨r', rfl⟩
      · intro r rs h
        exact absurd h (by simp)
      · intro r rs h
        simp only [List.cons.injEq] at h
        rw [← h.1]
        decide
    have hta := takeWhile_all_append isIdentCh cs rest hid.2 hblock
    simp only [List.cons_append]
    rw [matchToken, if_pos hid.1]
    rw [hta.1, hta.2]

/-- The scanner consumes exactly a two-character operator token. -/
lemma matchToken_op2 (t rest : List Char) (hop : t ∈ MULTIOPS_CH) :
    matchToken (t ++ rest) = some (t, rest) := by
  simp only [MULTIOPS_CH, List.mem_cons, List.mem_singleton, List.not_mem_nil,
    or_false] at hop
  rcases hop with rfl | rfl | rfl | rfl | rfl | rfl | rfl | rfl | rfl | rfl |
    rfl | rfl | rfl <;> rfl

/-- The scanner consumes exactly a single-punctuation token before a
separator. -/
lemma matchToken_single (c : Char) (rest : List Char)
    (hc : SINGLE_PUNCT.contains c = true) (hsep : SepRest rest) :
    matchToken (c :: rest) = some ([c], rest) := by
  have hfacts := single_punct_facts c (by simpa using hc)
  have hop : matchOp2 (c :: rest) = none := by
    rcases hsep with rfl | ⟨r', rfl⟩
    · rfl
    · have hfind : MULTIOPS_CH.find? (fun op => op == [c, ' ']) = none := by
        rw [List.find?_eq_none]
        intro op hmem
        simp only [MULTIOPS_CH, List.mem_cons, List.mem_singleton,
          List.not_mem_nil, or_false] at hmem
        rcases hmem with rfl | rfl | rfl | rfl | rfl | rfl | rfl | rfl | rfl |
          rfl | rfl | rfl | rfl <;> simp
      rw [matchOp2, hfind]
  rw [matchToken, if_neg (by simp [hfacts.1]), if_neg (by simp [hfacts.2]), hop]
  dsimp only
  rw [if_pos hc]

/-- The scanner consumes exactly any good token before a separator. -/
lemma matchToken_goodtok (t rest : List Char) (hg : GoodTokCh t)
    (hsep : SepRest rest) : matchToken (t ++ rest) = some (t, rest) := by
  rcases hg with hid | hop | ⟨c, rfl, hc⟩
  · exact matchToken_ident t rest hid hsep
  · exact matchToken_op2 t rest hop
  · exact matchToken_single c rest hc hsep

/-- The scanner skips a space. -/
lemma matchToken_space (xs : List Char) : matchToken (' ' :: xs) = none := by
  cases xs <;> rfl

/-- Good tokens are nonempty. -/
lemma goodtok_ne_nil (t : List Char) (hg : GoodTokCh t) : t ≠ [] := by
  rcases hg with hid | hop | ⟨c, rfl, _⟩
  · intro h
    subst h
    simp [identMatch] at hid
  · intro h
    subst h
    simp [MULTIOPS_CH] at hop
  · simp

/-- Tokenizing a space-joined list of good tokens returns the tokens. -/
lemma tokenizeAux_join : ∀ (ts : List (List Char)) (fuel : ℕ),
    (spaceJoinChars ts).length < fuel → (∀ t ∈ ts, GoodTokCh t) →
    tokenizeCharsAux fuel (spaceJoinChars ts) = ts := by
  intro ts
  induction ts with
  | nil =>
    intro fuel hf _
    cases fuel with
    | zero => omega
    | succ f => rfl
  | cons t ts ih =>
    intro fuel hf hall
    have hgt : GoodTokCh t := hall t (List.mem_cons_self _ _)
    obtain ⟨c, t', rfl⟩ : ∃ c t', t = c :: t' := by
      rcases t with _ | ⟨c, t'⟩
      · exact absurd rfl (goodtok_ne_nil _ hgt)
      · exact ⟨c, t', rfl⟩
    cases ts with
    | nil =>
      have hjoin : spaceJoinChars [c :: t'] = c :: t' := rfl
      rw [hjoin] at hf ⊢
      cases fuel with
      | zero => omega
      | succ f =>
        have hmt : matchToken ((c :: t') ++ []) = some (c :: t', []) :=
          matchToken_goodtok _ _ hgt (Or.inl rfl)
        rw [List.append_nil] at hmt
        simp only [tokenizeCharsAux]
        rw [hmt]
        cases f <;> rfl
    | cons t2 ts' =>
      have hjoin : spaceJoinChars ((c :: t') :: t2 :: ts') =
          (c :: t') ++ ' ' :: spaceJoinChars (t2 :: ts') := rfl
      rw [hjoin] at hf ⊢
      cases fuel with
      | zero => omega
      | succ f =>
        have hmt : matchToken ((c :: t') ++ ' ' :: spaceJoinChars (t2 :: ts')) =
            some (c :: t', ' ' :: spaceJoinChars (t2 :: ts')) :=
          matchToken_goodtok _ _ hgt (Or.inr ⟨_, rfl⟩)
        simp only [List.cons_append] at hmt ⊢
        simp only [tokenizeCharsAux]
        rw [hmt]
        simp only [List.length_cons, List.length_append] at hf
        cases f with
        | zero => omega
        | succ f' =>
          simp only [tokenizeCharsAux]
          rw [matchToken_space]
          rw [ih f' (by omega) (fun x hx => hall x (List.mem_cons_of_mem _ hx))]

/-- Characters on which the text-preparation passes are inert: ASCII,
no backslash, no hash. -/
def cleanChar (c : Char) : Bool :=
  decide (c.toNat < 128) && !(c == '\\') && !(c == '#')

/-- Adjacent-pair safety predicate. -/
def pairOK (bad : Char → Char → Bool) : List Char → Bool
  | a :: b :: rest => !bad a b && pairOK bad (b :: rest)
  | _ => true

/-- A pair opening a // or /* comment. -/
def badSlash (a b : Char) : Bool := a == '/' && (b == '/' || b == '*')

/-- A collapsible double space. -/
def badSpace (a b : Char) : Bool := a == ' ' && b == ' '

/-- stripHashAux does nothing without a hash character. -/
lemma stripHashAux_id : ∀ (fuel : ℕ) (cs : List Char), cs.length < fuel →
    cs.all (fun c => !(c == '#')) = true → stripHashAux fuel cs = cs := by
  intro fuel
  induction fuel with
  | zero => intro cs h _; omega
  | succ f ih =>
    intro cs h hall
    cases cs with
    | nil => rfl
    | cons c rest =>
      simp only [List.all_cons, Bool.and_eq_true, Bool.not_eq_true',
        beq_eq_false_iff_ne, ne_eq] at hall
      rw [stripHashAux, if_neg hall.1,
        ih rest (by simpa using Nat.lt_of_succ_lt_succ h) (by
          simpa [List.all_eq_true] using hall.2)]

/-- stripSlashSlashAux does nothing without an adjacent // or slash-star. -/
lemma stripSlashSlashAux_id : ∀ (fuel : ℕ) (cs : List Char), cs.length < fuel →
    pairOK badSlash cs = true → stripSlashSlashAux fuel cs = cs := by
  intro fuel
  induction fuel with
  | zero => intro cs h _; omega
  | succ f ih =>
    intro cs h hp
    match cs with
    | [] => rfl
    | [a] =>
      have hnil : stripSlashSlashAux f [] = [] := by cases f <;> rfl
      rw [stripSlashSlashAux]
      split_ifs
      · rfl
      · rw [hnil]
    | a :: b :: rest =>
      rw [pairOK] at hp
      simp only [Bool.and_eq_true, Bool.not_eq_true'] at hp
      have hrec := ih (b :: rest) (by simp only [List.length_cons] at h ⊢; omega) hp.2
      rw [stripSlashSlashAux]
      split_ifs with ha hb
      · exfalso
        rw [badSlash, ha, hb] at hp
        simp at hp
      · rw [hrec]
      · rw [hrec]

/-- stripBlockAux does nothing without an adjacent // or slash-star. -/
lemma stripBlockAux_id : ∀ (fuel : ℕ) (cs : List Char), cs.length < fuel →
    pairOK badSlash cs = true → stripBlockAux fuel cs = cs := by
  intro fuel
  induction fuel with
  | zero => intro cs h _; omega
  | succ f ih =>
    intro cs h hp
    match cs with
    | [] => rfl
    | [a] =>
      have hnil : stripBlockAux f [] = [] := by cases f <;> rfl
      rw [stripBlockAux]
      split_ifs
      · rfl
      · rw [hnil]
    | a :: b :: rest =>
      rw [pairOK] at hp
      simp only [Bool.and_eq_true, Bool.not_eq_true'] at hp
      have hrec := ih (b :: rest) (by simp only [List.length_cons] at h ⊢; omega) hp.2
      rw [stripBlockAux]
      split_ifs with ha hb
      · exfalso
        rw [badSlash, ha, hb] at hp
        simp at hp
      · rw [hrec]
      · rw [hrec]

/-- collapseSpaceTabAux does nothing without tabs or double spaces. -/
lemma collapseSpaceTabAux_id : ∀ (fuel : ℕ) (cs : List Char), cs.length < fuel →
    cs.all (fun c => !(c == '\t')) = true → pairOK badSpace cs = true →
    collapseSpaceTabAux fuel cs = cs := by
  intro fuel
  induction fuel with
  | zero => intro cs h _ _; omega
  | succ f ih =>
    intro cs h htab hp
    match cs with
    | [] => rfl
    | c :: rest =>
      simp only [List.all_cons, Bool.and_eq_true, Bool.not_eq_true',
        beq_eq_false_iff_ne, ne_eq] at htab
      have hp' : pairOK badSpace rest = true := by
        match rest, hp with
        | [], _ => rfl
        | r :: rs, hp =>
          rw [pairOK] at hp
          simp only [Bool.and_eq_true] at hp
          exact hp.2
      have hrec := ih rest (by simp only [List.length_cons] at h; omega)
        (by simpa [List.all_eq_true] using htab.2) hp'
      rw [collapseSpaceTabAux]
      split_ifs with hc
      · rcases hc with hc | hc
        · subst hc
          have hdrop : rest.dropWhile (fun d => d == ' ' || d == '\t') = rest := by
            match rest, hp, htab with
            | [], _, _ => rfl
            | r :: rs, hp, htab =>
              rw [pairOK] at hp
              simp only [badSpace, Bool.and_eq_true, Bool.not_eq_true'] at hp
              have hr : ¬r = ' ' := by
                intro hr
                rw [hr] at hp
                simp at hp
              have hrt : ¬r = '\t' := by
                simp only [List.all_cons, Bool.and_eq_true, Bool.not_eq_true',
                  beq_eq_false_iff_ne, ne_eq] at htab
                exact htab.2.1
              rw [List.dropWhile_cons, if_neg (by simp [hr, hrt])]
          rw [hdrop, hrec]
        · exact absurd hc htab.1
      · rw [hrec]

/-- collapseNewlinesAux does nothing without newlines. -/
lemma collapseNewlinesAux_id : ∀ (fuel : ℕ) (cs : List Char), cs.length < fuel →
    cs.all (fun c => !(c == '\n')) = true → collapseNewlinesAux fuel cs = cs := by
  intro fuel
  induction fuel with
  | zero => intro cs h _; omega
  | succ f ih =>
    intro cs h hall
    match cs with
    | [] => rfl
    | c :: rest =>
      simp only [List.all_cons, Bool.and_eq_true, Bool.not_eq_true',
        beq_eq_false_iff_ne, ne_eq] at hall
      rw [collapseNewlinesAux, if_neg hall.1,
        ih rest (by simp only [List.length_cons] at h; omega)
          (by simpa [List.all_eq_true] using hall.2)]

/-- UTF-8 of an ASCII character is the code itself. -/
lemma charUtf8_ascii (c : Char) (h : c.toNat < 128) : charUtf8 c = [c.toNat] := by
  rw [charUtf8]
  simp [h]

/-- UTF-8 of an all-ASCII list. -/
lemma utf8Bytes_ascii : ∀ (cs : List Char), (∀ c ∈ cs, c.toNat < 128) →
    utf8Bytes cs = cs.map Char.toNat := by
  intro cs
  induction cs with
  | nil => intro _; rfl
  | cons c rest ih =>
    intro hall
    rw [utf8Bytes, List.flatMap_cons,
      charUtf8_ascii c (hall c (List.mem_cons_self _ _))]
    rw [utf8Bytes] at ih
    rw [ih (fun x hx => hall x (List.mem_cons_of_mem _ hx))]
    rfl

/-- The escape decoder is the identity on ASCII byte lists without
backslashes. -/
lemma decodeUEAux_ascii : ∀ (fuel : ℕ) (cs : List Char), cs.length < fuel →
    (∀ c ∈ cs, c.toNat < 128 ∧ ¬c = '\\') →
    decodeUEAux fuel (cs.map Char.toNat) = some cs := by
  intro fuel
  induction fuel with
  | zero => intro cs h _; omega
  | succ f ih =>
    intro cs h hall
    cases cs with
    | nil => rfl
    | cons c rest =>
      have hc := hall c (List.mem_cons_self _ _)
      have hne : c.toNat ≠ 92 := by
        intro hna
        apply hc.2
        have := congrArg Char.ofNat hna
        rwa [Char.ofNat_toNat] at this
      rw [List.map_cons]
      simp only [decodeUEAux]
      rw [if_pos hne,
        ih rest (by simp only [List.length_cons] at h; omega)
          (fun x hx => hall x (List.mem_cons_of_mem _ hx))]
      simp [Char.ofNat_toNat]

/-- unicodeUnescape is the identity on clean ASCII text. -/
lemma unicodeUnescape_clean (cs : List Char)
    (hall : ∀ c ∈ cs, c.toNat < 128 ∧ ¬c = '\\') :
    unicodeUnescape cs = cs := by
  rw [unicodeUnescape]
  have hb := utf8Bytes_ascii cs (fun c hc => (hall c hc).1)
  rw [hb]
  rw [decodeUEAux_ascii ((cs.map Char.toNat).length + 1) cs (by simp) hall]

/-- Characters allowed inside normalized output tokens. -/
def tokCharB (c : Char) : Bool :=
  cleanChar c && !(c == '\t') && !(c == '\n') && !(c == ' ')

/-- Operator-token shape (two-character or single punctuation). -/
def OpTokStr (t : String) : Prop :=
  t.data ∈ MULTIOPS_CH ∨ ∃ c, t.data = [c] ∧ SINGLE_PUNCT.contains c = true

/-- Shape of every token the normalization loop can emit. -/
def OutTok (t : String) : Prop :=
  t ∈ KEYWORDS ∨ t = "TYPE" ∨ t = "NUM" ∨ isSlotTok t = true ∨ OpTokStr t

/-- Keyword facts: lowercase fixed points, identifier-shaped, not slots,
nonempty, and all characters clean. -/
lemma keywords_facts : ∀ kw ∈ KEYWORDS, strLower kw = kw ∧
    identMatch kw.data = true ∧ isSlotTok kw = false ∧ kw ≠ "" ∧
    kw.data.all tokCharB = true := by decide

/-- TYPE and NUM facts. -/
lemma type_num_facts : identMatch "TYPE".data = true ∧ identMatch "NUM".data = true ∧
    isSlotTok "TYPE" = false ∧ isSlotTok "NUM" = false ∧
    "TYPE".data.all tokCharB = true ∧ "NUM".data.all tokCharB = true := by decide

/-- Two-character operator facts. -/
lemma multiops_facts : ∀ op ∈ MULTIOPS_CH,
    strLower (String.mk op) = String.mk op ∧ String.mk op ∉ KEYWORDS ∧
    String.mk op ∉ TYPES ∧ numberMatch op = false ∧ identMatch op = false ∧
    isSlotTok (String.mk op) = false ∧ op.all tokCharB = true ∧
    pairOK badSlash op = true := by decide

/-- Single-punctuation facts. -/
lemma singles_facts : ∀ c ∈ SINGLE_PUNCT,
    strLower (String.mk [c]) = String.mk [c] ∧ String.mk [c] ∉ KEYWORDS ∧
    String.mk [c] ∉ TYPES ∧ numberMatch [c] = false ∧ identMatch [c] = false ∧
    isSlotTok (String.mk [c]) = false ∧ tokCharB c = true := by decide

/-- No keyword or type keyword starts with the letters var. -/
lemma no_var_endings : (∀ kw ∈ KEYWORDS, kw.data.take 3 ≠ ['v', 'a', 'r']) ∧
    (∀ ty ∈ TYPES, ty.data.take 3 ≠ ['v', 'a', 'r']) := by decide

/-- Digit characters are clean token characters and identifier characters. -/
lemma digit_char_facts : ∀ c : Char, isDigitCh c = true →
    tokCharB c = true ∧ isIdentCh c = true ∧ ¬c = '/' ∧ ¬c = ' ' := by
  intro c h
  rw [isDigitCh, Bool.and_eq_true, decide_eq_true_eq, decide_eq_true_eq] at h
  refine ⟨?_, ?_, ?_, ?_⟩
  · rw [tokCharB, cleanChar]
    have h1 : c.toNat < 128 := by omega
    have hne : ∀ (d : Char), c = d → c.toNat = d.toNat := fun d hd => by rw [hd]
    simp only [Bool.and_eq_true, decide_eq_true_eq, Bool.not_eq_true',
      beq_eq_false_iff_ne, ne_eq]
    refine ⟨⟨⟨⟨⟨h1, fun hc => by have := hne _ hc; simp at this; omega⟩,
      fun hc => by have := hne _ hc; simp at this; omega⟩,
      fun hc => by have := hne _ hc; simp at this; omega⟩,
      fun hc => by have := hne _ hc; simp at this; omega⟩,
      fun hc => by have := hne _ hc; simp at this; omega⟩
  · rw [isIdentCh, isDigitCh]
    simp only [Bool.or_eq_true, Bool.and_eq_true, decide_eq_true_eq]
    right
    omega
  · intro hc
    subst hc
    simp at h
  · intro hc
    subst hc
    simp at h

/-- Slot tokens are exactly VAR followed by a nonempty digit string. -/
lemma isSlotTok_shape (t : String) (hs : isSlotTok t = true) :
    ∃ ds, t.data = 'V' :: 'A' :: 'R' :: ds ∧ ds ≠ [] ∧ ds.all isDigitCh = true := by
  unfold isSlotTok at hs
  split at hs
  · rename_i ds heq
    rw [Bool.and_eq_true, Bool.not_eq_true'] at hs
    exact ⟨ds, heq, by simpa using hs.1, hs.2⟩
  · exact absurd hs (by simp)

lemma slot_facts (t : String) (hs : isSlotTok t = true) :
    identMatch t.data = true ∧ t.data.all tokCharB = true ∧ t ≠ "" ∧
    strLower t ∉ KEYWORDS ∧ strLower t ∉ TYPES ∧ numberMatch t.data = false := by
  obtain ⟨ds, heq, hne, hall⟩ := isSlotTok_shape t hs
  rw [List.all_eq_true] at hall
  have hlow : (strLower t).data.take 3 = ['v', 'a', 'r'] := by
    rw [strLower]
    show (t.data.map Char.toLower).take 3 = _
    rw [heq]
    simp only [List.map_cons, List.take_succ_cons, List.take_zero]
    decide
  refine ⟨?_, ?_, ?_, ?_, ?_, ?_⟩
  · rw [heq]
    show (isIdentStartCh 'V' && (('A' :: 'R' :: ds).all isIdentCh)) = true
    simp only [List.all_cons, Bool.and_eq_true]
    refine ⟨by decide, by decide, by decide, ?_⟩
    rw [List.all_eq_true]
    exact fun c hc => (digit_char_facts c (hall c hc)).2.1
  · rw [heq]
    simp only [List.all_cons, Bool.and_eq_true]
    refine ⟨by decide, by decide, by decide, ?_⟩
    rw [List.all_eq_true]
    exact fun c hc => (digit_char_facts c (hall c hc)).1
  · intro h
    rw [h] at heq
    simp at heq
  · intro hmem
    exact no_var_endings.1 _ hmem hlow
  · intro hmem
    exact no_var_endings.2 _ hmem hlow
  · rw [heq]
    have h0 : isDigitCh 'V' = false := by decide
    simp [numberMatch, h0]

/-- Every character of a joined token list is a space or a token character. -/
lemma spaceJoin_mem : ∀ (ts : List (List Char)) (c : Char),
    c ∈ spaceJoinChars ts → c = ' ' ∨ ∃ t ∈ ts, c ∈ t := by
  intro ts
  induction ts with
  | nil =>
    intro c hc
    simp [spaceJoinChars] at hc
  | cons t ts ih =>
    intro c hc
    cases ts with
    | nil =>
      right
      exact ⟨t, List.mem_cons_self _ _, by simpa [spaceJoinChars] using hc⟩
    | cons t2 ts2 =>
      rw [show spaceJoinChars (t :: t2 :: ts2) = t ++ ' ' :: spaceJoinChars (t2 :: ts2)
        from rfl] at hc
      rcases List.mem_append.1 hc with h1 | h2
      · exact Or.inr ⟨t, List.mem_cons_self _ _, h1⟩
      · rcases List.mem_cons.1 h2 with rfl | h3
        · exact Or.inl rfl
        · rcases ih c h3 with h | ⟨u, hu, hcu⟩
          · exact Or.inl h
          · exact Or.inr ⟨u, List.mem_cons_of_mem _ hu, hcu⟩

/-- The join of a list headed by a nonempty token starts with a character
of that token. -/
lemma spaceJoin_head (t : List Char) (ts : List (List Char)) (hne : t ≠ []) :
    ∃ c rest, spaceJoinChars (t :: ts) = c :: rest ∧ c ∈ t := by
  cases t with
  | nil => exact absurd rfl hne
  | cons c t' =>
    cases ts with
    | nil => exact ⟨c, t', rfl, List.mem_cons_self _ _⟩
    | cons t2 ts2 =>
      exact ⟨c, t' ++ ' ' :: spaceJoinChars (t2 :: ts2), rfl, List.mem_cons_self _ _⟩

/-- pairOK holds when no character can trigger the pair predicate from
the left. -/
lemma pairOK_of_head (bad : Char → Char → Bool) (p : Char → Prop)
    (hb : ∀ a b, ¬p a → bad a b = false) :
    ∀ cs : List Char, (∀ c ∈ cs, ¬p c) → pairOK bad cs = true := by
  intro cs
  induction cs with
  | nil => intro _; rfl
  | cons a cs ih =>
    intro h
    cases cs with
    | nil => rfl
    | cons b cs2 =>
      show (!bad a b && pairOK bad (b :: cs2)) = true
      rw [Bool.and_eq_true]
      constructor
      · rw [hb a b (h a (List.mem_cons_self _ _))]
        rfl
      · exact ih (fun c hc => h c (List.mem_cons_of_mem _ hc))

/-- Appending a space-separated safe tail preserves pairOK. -/
lemma pairOK_sep_append (bad : Char → Char → Bool) :
    ∀ (t rest : List Char), pairOK bad t = true →
    (∀ c ∈ t, bad c ' ' = false) →
    pairOK bad (' ' :: rest) = true →
    pairOK bad (t ++ ' ' :: rest) = true := by
  intro t
  induction t with
  | nil =>
    intro rest _ _ h3
    exact h3
  | cons a t ih =>
    intro rest hp h2 h3
    cases t with
    | nil =>
      show (!bad a ' ' && pairOK bad (' ' :: rest)) = true
      rw [h2 a (List.mem_cons_self _ _), h3]
      rfl
    | cons b t2 =>
      have hp' : (!bad a b && pairOK bad (b :: t2)) = true := hp
      rw [Bool.and_eq_true] at hp'
      show (!bad a b && pairOK bad ((b :: t2) ++ ' ' :: rest)) = true
      rw [Bool.and_eq_true]
      exact ⟨hp'.1, ih rest hp'.2 (fun c hc => h2 c (List.mem_cons_of_mem _ hc)) h3⟩

/-- pairOK of a whole space-join from per-token pairOK plus boundary
safety against the separator. -/
lemma pairOK_join (bad : Char → Char → Bool) :
    ∀ ts : List (List Char),
    (∀ t ∈ ts, t ≠ [] ∧ pairOK bad t = true ∧
      ∀ c ∈ t, bad c ' ' = false ∧ bad ' ' c = false) →
    pairOK bad (spaceJoinChars ts) = true := by
  intro ts
  induction ts with
  | nil => intro _; rfl
  | cons t ts ih =>
    intro h
    cases ts with
    | nil =>
      exact (h t (List.mem_cons_self _ _)).2.1
    | cons t2 ts2 =>
      have hrest : ∀ u ∈ t2 :: ts2, u ≠ [] ∧ pairOK bad u = true ∧
          ∀ c ∈ u, bad c ' ' = false ∧ bad ' ' c = false :=
        fun u hu => h u (List.mem_cons_of_mem _ hu)
      obtain ⟨c2, j2, hj, hc2⟩ := spaceJoin_head t2 ts2 (hrest t2 (List.mem_cons_self _ _)).1
      show pairOK bad (t ++ ' ' :: spaceJoinChars (t2 :: ts2)) = true
      apply pairOK_sep_append bad t _ (h t (List.mem_cons_self _ _)).2.1
        (fun c hc => ((h t (List.mem_cons_self _ _)).2.2 c hc).1)
      rw [hj]
      show (!bad ' ' c2 && pairOK bad (c2 :: j2)) = true
      rw [Bool.and_eq_true]
      constructor
      · rw [((hrest t2 (List.mem_cons_self _ _)).2.2 c2 hc2).2]
        rfl
      · rw [← hj]
        exact ih hrest

/-- Each character of an identifier-shaped token is an identifier
character (start or continuation). -/
lemma identMatch_chars (cs : List Char) (h : identMatch cs = true) :
    ∀ c ∈ cs, isIdentStartCh c = true ∨ isIdentCh c = true := by
  cases cs with
  | nil => simp [identMatch] at h
  | cons a rest =>
    have h' : (isIdentStartCh a && rest.all isIdentCh) = true := h
    rw [Bool.and_eq_true, List.all_eq_true] at h'
    intro c hc
    rcases List.mem_cons.1 hc with rfl | hc2
    · exact Or.inl h'.1
    · exact Or.inr (h'.2 c hc2)

/-- Identifier characters are neither slash nor space. -/
lemma identish_not_slash_space (c : Char)
    (h : isIdentStartCh c = true ∨ isIdentCh c = true) : ¬c = '/' ∧ ¬c = ' ' := by
  constructor <;> intro hc <;> subst hc <;> revert h <;> decide

/-- The slash pair predicate never fires against a space, on either side. -/
lemma badSlash_space (c : Char) : badSlash c ' ' = false ∧ badSlash ' ' c = false := by
  constructor
  · rw [badSlash]
    have h : ((' ' == '/') || (' ' == '*')) = false := by decide
    rw [h, Bool.and_false]
  · rw [badSlash]
    have h : (' ' == '/') = false := by decide
    rw [h, Bool.false_and]

/-- A clean token character forbids spaces on both sides of the space
pair predicate. -/
lemma badSpace_tok (c : Char) (hc : ¬c = ' ') :
    badSpace c ' ' = false ∧ badSpace ' ' c = false := by
  constructor
  · rw [badSpace]
    have h : (c == ' ') = false := by simpa using hc
    rw [h, Bool.false_and]
  · rw [badSpace]
    have h : (c == ' ') = false := by simpa using hc
    rw [h, Bool.and_false]

/-- Unpacking of tokCharB. -/
lemma tokCharB_spec (c : Char) (h : tokCharB c = true) :
    cleanChar c = true ∧ ¬c = '\t' ∧ ¬c = '\n' ∧ ¬c = ' ' := by
  rw [tokCharB] at h
  simp only [Bool.and_eq_true, Bool.not_eq_true', beq_eq_false_iff_ne, ne_eq] at h
  exact ⟨h.1.1.1, h.1.1.2, h.1.2, h.2⟩

/-- Aggregate facts about any token the normalizer can output: nonempty,
scanner-reconstructible, clean characters, and comment/space pair safety. -/
lemma outTok_facts (t : String) (h : OutTok t) :
    t ≠ "" ∧ GoodTokCh t.data ∧ t.data.all tokCharB = true ∧
    pairOK badSlash t.data = true ∧ pairOK badSpace t.data = true := by
  have hne_of_data : t.data ≠ [] → t ≠ "" := by
    intro hd he
    rw [he] at hd
    exact hd rfl
  have hspace : t.data.all tokCharB = true → pairOK badSpace t.data = true := by
    intro hall
    rw [List.all_eq_true] at hall
    exact pairOK_of_head badSpace (fun c => c = ' ')
      (fun a b ha => by rw [badSpace]; have : (a == ' ') = false := by simpa using ha
                        rw [this, Bool.false_and])
      t.data (fun c hc => (tokCharB_spec c (hall c hc)).2.2.2)
  have hslash_of_ident : identMatch t.data = true → pairOK badSlash t.data = true := by
    intro hid
    exact pairOK_of_head badSlash (fun c => c = '/')
      (fun a b ha => by rw [badSlash]; have : (a == '/') = false := by simpa using ha
                        rw [this, Bool.false_and])
      t.data (fun c hc => (identish_not_slash_space c (identMatch_chars t.data hid c hc)).1)
  have hident_ne : identMatch t.data = true → t.data ≠ [] := by
    intro hid hd
    rw [hd] at hid
    simp [identMatch] at hid
  rcases h with hkw | hty | hnu | hsl | hop
  · obtain ⟨_, hid, _, hne, hcb⟩ := keywords_facts t hkw
    exact ⟨hne, Or.inl hid, hcb, hslash_of_ident hid, hspace hcb⟩
  · subst hty
    obtain ⟨hid, _, _, _, hcb, _⟩ := type_num_facts
    exact ⟨by decide, Or.inl hid, hcb, hslash_of_ident hid, hspace hcb⟩
  · subst hnu
    obtain ⟨_, hid, _, _, _, hcb⟩ := type_num_facts
    exact ⟨by decide, Or.inl hid, hcb, hslash_of_ident hid, hspace hcb⟩
  · obtain ⟨hid, hcb, hne, _, _, _⟩ := slot_facts t hsl
    exact ⟨hne, Or.inl hid, hcb, hslash_of_ident hid, hspace hcb⟩
  · rcases hop with hmul | ⟨c, hc1, hc2⟩
    · have hfacts := multiops_facts t.data hmul
      have hopne : ∀ op ∈ MULTIOPS_CH, op ≠ [] := by decide
      exact ⟨hne_of_data (hopne t.data hmul), Or.inr (Or.inl hmul),
        hfacts.2.2.2.2.2.2.1, hfacts.2.2.2.2.2.2.2, hspace hfacts.2.2.2.2.2.2.1⟩
    · have hfacts := singles_facts c (by simpa using hc2)
      have hcb : t.data.all tokCharB = true := by
        rw [hc1, List.all_cons, List.all_nil, hfacts.2.2.2.2.2.2, Bool.and_true]
      refine ⟨hne_of_data (by rw [hc1]; simp), Or.inr (Or.inr ⟨c, hc1, hc2⟩), hcb, ?_, hspace hcb⟩
      rw [hc1]
      rfl

/-- Unpacking of cleanChar. -/
lemma cleanChar_spec (c : Char) (h : cleanChar c = true) :
    c.toNat < 128 ∧ ¬c = '\\' ∧ ¬c = '#' := by
  rw [cleanChar] at h
  simp only [Bool.and_eq_true, decide_eq_true_eq, Bool.not_eq_true',
    beq_eq_false_iff_ne, ne_eq] at h
  exact ⟨h.1.1, h.1.2, h.2⟩

/-- The full text-preparation and scanning pipeline is the identity on
the space-join of normalizer output tokens: decoding, comment removal and
whitespace collapsing leave it unchanged and the scanner recovers exactly
the original tokens. -/
lemma rawTokens_join (ts : List String) (h : ∀ t ∈ ts, OutTok t) :
    rawTokens (String.mk (spaceJoinChars (ts.map String.data))) = ts := by
  have hfacts : ∀ t ∈ ts, t ≠ "" ∧ GoodTokCh t.data ∧ t.data.all tokCharB = true ∧
      pairOK badSlash t.data = true ∧ pairOK badSpace t.data = true :=
    fun t ht => outTok_facts t (h t ht)
  have hchar : ∀ c ∈ spaceJoinChars (ts.map String.data), c = ' ' ∨ tokCharB c = true := by
    intro c hc
    rcases spaceJoin_mem _ c hc with hsp | ⟨u, hu, hcu⟩
    · exact Or.inl hsp
    · obtain ⟨t, ht, rfl⟩ := List.mem_map.1 hu
      have hall := (hfacts t ht).2.2.1
      rw [List.all_eq_true] at hall
      exact Or.inr (hall c hcu)
  have hclean : ∀ c ∈ spaceJoinChars (ts.map String.data),
      c.toNat < 128 ∧ ¬c = '\\' ∧ ¬c = '#' ∧ ¬c = '\t' ∧ ¬c = '\n' := by
    intro c hc
    rcases hchar c hc with rfl | htk
    · exact ⟨by decide, by decide, by decide, by decide, by decide⟩
    · obtain ⟨hcl, ht, hn, _⟩ := tokCharB_spec c htk
      obtain ⟨h1, h2, h3⟩ := cleanChar_spec c hcl
      exact ⟨h1, h2, h3, ht, hn⟩
  have hjoinne : ∀ u ∈ ts.map String.data, u ≠ [] := by
    intro u hu
    obtain ⟨t, ht, rfl⟩ := List.mem_map.1 hu
    intro hd
    apply (hfacts t ht).1
    cases t
    exact congrArg String.mk hd
  have hpslash : pairOK badSlash (spaceJoinChars (ts.map String.data)) = true := by
    apply pairOK_join
    intro u hu
    obtain ⟨t, ht, rfl⟩ := List.mem_map.1 hu
    exact ⟨hjoinne t.data hu, (hfacts t ht).2.2.2.1,
      fun c _ => ⟨(badSlash_space c).1, (badSlash_space c).2⟩⟩
  have hpspace : pairOK badSpace (spaceJoinChars (ts.map String.data)) = true := by
    apply pairOK_join
    intro u hu
    obtain ⟨t, ht, rfl⟩ := List.mem_map.1 hu
    have hall := (hfacts t ht).2.2.1
    rw [List.all_eq_true] at hall
    refine ⟨hjoinne t.data hu, (hfacts t ht).2.2.2.2, fun c hc => ?_⟩
    exact badSpace_tok c (tokCharB_spec c (hall c hc)).2.2.2
  rw [rawTokens]
  have hdata : (String.mk (spaceJoinChars (ts.map String.data))).data =
      spaceJoinChars (ts.map String.data) := rfl
  rw [hdata]
  rw [unicodeUnescape_clean _ (fun c hc => ⟨(hclean c hc).1, (hclean c hc).2.1⟩)]
  rw [remove_comments]
  rw [stripHash, stripHashAux_id _ _ (by omega)
    (by rw [List.all_eq_true]
        intro c hc
        have := (hclean c hc).2.2.1
        simpa using this)]
  rw [stripSlashSlash, stripSlashSlashAux_id _ _ (by omega) hpslash]
  rw [stripBlock, stripBlockAux_id _ _ (by omega) hpslash]
  rw [collapseSpaceTab, collapseSpaceTabAux_id _ _ (by omega)
    (by rw [List.all_eq_true]
        intro c hc
        have := (hclean c hc).2.2.2.1
        simpa using this) hpspace]
  rw [collapseNewlines, collapseNewlinesAux_id _ _ (by omega)
    (by rw [List.all_eq_true]
        intro c hc
        have := (hclean c hc).2.2.2.2
        simpa using this)]
  rw [tokenizeChars, tokenizeAux_join _ _ (by omega)
    (by intro u hu
        obtain ⟨t, ht, rfl⟩ := List.mem_map.1 hu
        exact (hfacts t ht).2.1)]
  rw [List.map_map]
  exact List.map_id'' (fun t => rfl) ts

/-- Unfolding of numberMatch on a nonempty list. -/
lemma numberMatch_cons (c : Char) (rest : List Char) :
    numberMatch (c :: rest) =
      (isDigitCh c &&
        match (c :: rest).dropWhile isDigitCh with
        | [] => true
        | d :: r2 => d == '.' && r2.all isDigitCh) := rfl

/-- Any token the scanner matches is identifier-shaped, number-shaped, a
two-character operator, or single punctuation. -/
lemma matchToken_shape : ∀ (cs t r : List Char), matchToken cs = some (t, r) →
    identMatch t = true ∨ numberMatch t = true ∨ t ∈ MULTIOPS_CH ∨
    ∃ c, t = [c] ∧ SINGLE_PUNCT.contains c = true := by
  intro cs t r h
  match cs with
  | [] => simp [matchToken] at h
  | c :: rest =>
    rw [matchToken] at h
    split_ifs at h with h1 h2 h3
    · simp only [Option.some.injEq, Prod.mk.injEq] at h
      left
      rw [← h.1]
      show (isIdentStartCh c && (rest.takeWhile isIdentCh).all isIdentCh) = true
      rw [Bool.and_eq_true, List.all_eq_true]
      exact ⟨h1, fun x hx => List.mem_takeWhile_imp hx⟩
    · right; left
      have hds : ∀ x ∈ rest.takeWhile isDigitCh, isDigitCh x = true :=
        fun x hx => List.mem_takeWhile_imp hx
      have hdropnil : (c :: rest.takeWhile isDigitCh).dropWhile isDigitCh = [] := by
        rw [List.dropWhile_cons_of_pos h2, List.dropWhile_eq_nil_iff]
        exact hds
      rcases hr1 : rest.dropWhile isDigitCh with _ | ⟨d, r2⟩
      · rw [hr1] at h
        dsimp only at h
        simp only [Option.some.injEq, Prod.mk.injEq] at h
        rw [← h.1]
        simp [numberMatch, hdropnil, h2]
      · rw [hr1] at h
        dsimp only at h
        split_ifs at h with hd
        · simp only [Option.some.injEq, Prod.mk.injEq] at h
          rw [beq_iff_eq] at hd
          subst hd
          rw [← h.1]
          have hsplit := takeWhile_all_append isDigitCh (rest.takeWhile isDigitCh)
            ('.' :: r2.takeWhile isDigitCh) hds
            (by intro x xs hx
                rw [List.cons.injEq] at hx
                rw [← hx.1]
                decide)
          rw [List.cons_append, numberMatch_cons, Bool.and_eq_true]
          refine ⟨h2, ?_⟩
          rw [List.dropWhile_cons_of_pos h2, hsplit.2]
          show ((('.' : Char) == '.') && (r2.takeWhile isDigitCh).all isDigitCh) = true
          rw [Bool.and_eq_true, List.all_eq_true]
          exact ⟨rfl, fun x hx => List.mem_takeWhile_imp hx⟩
        · simp only [Option.some.injEq, Prod.mk.injEq] at h
          rw [← h.1]
          simp [numberMatch, hdropnil, h2]
    · rcases hop : matchOp2 (c :: rest) with _ | p
      · rw [hop] at h
        dsimp only at h
        simp only [Option.some.injEq, Prod.mk.injEq] at h
        exact Or.inr (Or.inr (Or.inr ⟨c, h.1.symm, by simpa using h3⟩))
      · rw [hop] at h
        dsimp only at h
        simp only [Option.some.injEq] at h
        subst h
        exact Or.inr (Or.inr (Or.inl (matchOp2_spec _ t r hop).2.1))
    · rcases hop : matchOp2 (c :: rest) with _ | p
      · rw [hop] at h
        dsimp only at h
        exact absurd h (by simp)
      · rw [hop] at h
        dsimp only at h
        simp only [Option.some.injEq] at h
        subst h
        exact Or.inr (Or.inr (Or.inl (matchOp2_spec _ t r hop).2.1))

/-- Every token the scanner emits has one of the four raw shapes. -/
lemma tokenizeAux_shapes : ∀ (fuel : ℕ) (cs t : List Char),
    t ∈ tokenizeCharsAux fuel cs →
    identMatch t = true ∨ numberMatch t = true ∨ t ∈ MULTIOPS_CH ∨
    ∃ c, t = [c] ∧ SINGLE_PUNCT.contains c = true := by
  intro fuel
  induction fuel with
  | zero =>
    intro cs t ht
    simp [tokenizeCharsAux] at ht
  | succ f ih =>
    intro cs t ht
    match cs with
    | [] => simp [tokenizeCharsAux] at ht
    | c :: rest =>
      rw [tokenizeCharsAux] at ht
      rcases hmt : matchToken (c :: rest) with _ | ⟨u, r⟩
      · rw [hmt] at ht
        exact ih rest t ht
      · rw [hmt] at ht
        rcases List.mem_cons.1 ht with rfl | ht2
        · exact matchToken_shape (c :: rest) t r hmt
        · exact ih r t ht2

/-- Shape of raw scanner tokens, as a predicate on strings. -/
def RawTok (t : String) : Prop :=
  identMatch t.data = true ∨ numberMatch t.data = true ∨ OpTokStr t

/-- All raw tokens of any prepared code string have a raw shape. -/
lemma rawTokens_shapes (code : String) : ∀ t ∈ rawTokens code, RawTok t := by
  intro t ht
  rw [rawTokens] at ht
  obtain ⟨u, hu, rfl⟩ := List.mem_map.1 ht
  have hsh := tokenizeAux_shapes _ _ u hu
  have hdata : (String.mk u).data = u := rfl
  rw [RawTok, OpTokStr, hdata]
  rcases hsh with h | h | h | h
  · exact Or.inl h
  · exact Or.inr (Or.inl h)
  · exact Or.inr (Or.inr (Or.inl h))
  · exact Or.inr (Or.inr (Or.inr h))

/-- firstOcc only depends on the membership content of the seen list. -/
lemma firstOcc_congr : ∀ (l s1 s2 : List String), (∀ x, x ∈ s1 ↔ x ∈ s2) →
    firstOcc s1 l = firstOcc s2 l := by
  intro l
  induction l with
  | nil => intro _ _ _; rfl
  | cons x xs ih =>
    intro s1 s2 hs
    rw [firstOcc, firstOcc]
    by_cases hx : x ∈ s1
    · rw [if_pos hx, if_pos ((hs x).1 hx)]
      exact ih s1 s2 hs
    · rw [if_neg hx, if_neg (fun h2 => hx ((hs x).2 h2))]
      rw [ih (x :: s1) (x :: s2) (fun y => by
        rw [List.mem_cons, List.mem_cons, hs y])]

/-- A successful association-list lookup means the key and value are
present in the respective projections. -/
lemma lookup_mem : ∀ (m : List (String × String)) (k v : String),
    m.lookup k = some v → k ∈ m.map Prod.fst ∧ v ∈ m.map Prod.snd := by
  intro m
  induction m with
  | nil => intro k v h; simp [List.lookup] at h
  | cons hd tl ih =>
    intro k v h
    obtain ⟨a, b⟩ := hd
    cases hbe : (k == a) with
    | true =>
      simp only [List.lookup, hbe] at h
      rw [beq_iff_eq] at hbe
      simp only [Option.some.injEq] at h
      subst hbe
      subst h
      exact ⟨List.mem_cons_self _ _, List.mem_cons_self _ _⟩
    | false =>
      simp only [List.lookup, hbe] at h
      obtain ⟨h1, h2⟩ := ih k v h
      exact ⟨List.mem_cons_of_mem _ h1, List.mem_cons_of_mem _ h2⟩

/-- A failed association-list lookup means the key is absent. -/
lemma lookup_none : ∀ (m : List (String × String)) (k : String),
    m.lookup k = none → k ∉ m.map Prod.fst := by
  intro m
  induction m with
  | nil => intro k _; simp
  | cons hd tl ih =>
    intro k h
    obtain ⟨a, b⟩ := hd
    cases hbe : (k == a) with
    | true =>
      simp only [List.lookup, hbe] at h
      exact absurd h (by simp)
    | false =>
      simp only [List.lookup, hbe] at h
      rw [beq_eq_false_iff_ne] at hbe
      simp only [List.map_cons, List.mem_cons]
      rintro (rfl | hmem)
      · exact hbe rfl
      · exact ih k h hmem

/-- VAR labels, one more. -/
lemma varLabels_succ (n : ℕ) :
    varLabels (n + 1) = varLabels n ++ [mkVarLabel (n + 1)] := by
  rw [varLabels, varLabels, List.range'_concat, List.map_append]
  have h : 1 + 1 * n = n + 1 := by omega
  rw [h]
  rfl

/-- Membership in the VAR label list. -/
lemma mem_varLabels {v : String} {n : ℕ} :
    v ∈ varLabels n ↔ ∃ k, 1 ≤ k ∧ k ≤ n ∧ v = mkVarLabel k := by
  rw [varLabels, List.mem_map]
  constructor
  · rintro ⟨k, hk, rfl⟩
    rw [List.mem_range'_1] at hk
    exact ⟨k, hk.1, by omega, rfl⟩
  · rintro ⟨k, h1, h2, rfl⟩
    exact ⟨k, List.mem_range'_1.2 ⟨h1, by omega⟩, rfl⟩

/-- The next fresh label is not among the labels already issued. -/
lemma fresh_label_not_mem (n : ℕ) : mkVarLabel (n + 1) ∉ varLabels n := by
  rw [mem_varLabels]
  rintro ⟨k, h1, h2, he⟩
  have := mkVarLabel_inj _ _ he
  omega

/-- Peeling the first label off a labelled range. -/
lemma varSeq_cons (a k : ℕ) :
    (List.range' a (k + 1)).map mkVarLabel =
      mkVarLabel a :: (List.range' (a + 1) k).map mkVarLabel := by
  rw [List.range'_succ, List.map_cons]

/-- The folding step of the token-classification loop. -/
def slotStep (acc : List String × NormState) (token : String) :
    List String × NormState :=
  let r := normalize_token acc.2 token
  if r.1 ≠ "" then (acc.1 ++ [r.1], r.2) else (acc.1, r.2)

lemma slotifyTokens_eq (st : NormState) (toks : List String) :
    slotifyTokens st toks = toks.foldl slotStep ([], st) := rfl

lemma filter_cons_true {p : String → Bool} {a : String} (l : List String)
    (h : p a = true) : (a :: l).filter p = a :: l.filter p := by
  simp [List.filter_cons, h]

lemma filter_cons_false {p : String → Bool} {a : String} (l : List String)
    (h : p a = false) : (a :: l).filter p = l.filter p := by
  simp [List.filter_cons, h]

/-- Case analysis of one normalize_token step: the output token is a
normalizer shape and the state either stays unchanged (non-identifier or
already-mapped identifier) or gains exactly one fresh slot binding. -/
lemma normalize_token_cases (st : NormState) (t : String) (hraw : RawTok t)
    (hvals : st.identifier_map.map Prod.snd = varLabels st.var_counter) :
    ∃ y st1, normalize_token st t = (y, st1) ∧ y ≠ "" ∧ OutTok y ∧
      ((st1 = st ∧ isSlotTok y = false ∧ ¬IdentSlotted t) ∨
       (st1 = st ∧ y ∈ varLabels st.var_counter ∧ IdentSlotted t ∧
         t ∈ st.identifier_map.map Prod.fst) ∨
       (y = mkVarLabel (st.var_counter + 1) ∧ IdentSlotted t ∧
         t ∉ st.identifier_map.map Prod.fst ∧
         st1.identifier_map.map Prod.fst = st.identifier_map.map Prod.fst ++ [t] ∧
         st1.identifier_map.map Prod.snd = st.identifier_map.map Prod.snd ++ [y] ∧
         st1.var_counter = st.var_counter + 1)) := by
  by_cases hkw : strLower t ∈ KEYWORDS
  · refine ⟨strLower t, st, ?_, (keywords_facts _ hkw).2.2.2.1, Or.inl hkw,
      Or.inl ⟨rfl, (keywords_facts _ hkw).2.2.1, fun hi => hi.1 hkw⟩⟩
    simp only [normalize_token]
    rw [if_pos hkw]
  · by_cases hty : strLower t ∈ TYPES
    · refine ⟨"TYPE", st, ?_, by decide, Or.inr (Or.inl rfl),
        Or.inl ⟨rfl, type_num_facts.2.2.1, fun hi => hi.2.1 hty⟩⟩
      simp only [normalize_token]
      rw [if_neg hkw, if_pos hty]
    · by_cases hnum : numberMatch t.data = true
      · refine ⟨"NUM", st, ?_, by decide, Or.inr (Or.inr (Or.inl rfl)),
          Or.inl ⟨rfl, type_num_facts.2.2.2.1, fun hi => ?_⟩⟩
        · simp only [normalize_token]
          rw [if_neg hkw, if_neg hty, if_pos hnum]
        · rw [hi.2.2.1] at hnum
          exact absurd hnum (by simp)
      · by_cases hid : identMatch t.data = true
        · have hnumf : numberMatch t.data = false := by
            revert hnum
            cases numberMatch t.data <;> simp
          have hisl : IdentSlotted t := ⟨hkw, hty, hnumf, hid⟩
          rcases hlk : st.identifier_map.lookup t with _ | v
          · refine ⟨mkVarLabel (st.var_counter + 1),
              { st with var_counter := st.var_counter + 1,
                        identifier_map := st.identifier_map ++
                          [(t, mkVarLabel (st.var_counter + 1))] },
              ?_, (slot_facts _ (isSlotTok_mkVarLabel _)).2.2.1,
              Or.inr (Or.inr (Or.inr (Or.inl (isSlotTok_mkVarLabel _)))),
              Or.inr (Or.inr ⟨rfl, hisl, lookup_none _ _ hlk, by simp, by simp, rfl⟩)⟩
            simp only [normalize_token]
            rw [if_neg hkw, if_neg hty, if_neg hnum, if_pos hid, hlk]
          · have hv : v ∈ varLabels st.var_counter := by
              rw [← hvals]
              exact (lookup_mem _ _ _ hlk).2
            obtain ⟨k, hk1, hk2, hkv⟩ := mem_varLabels.1 hv
            refine ⟨v, st, ?_, ?_, ?_,
              Or.inr (Or.inl ⟨rfl, hv, hisl, (lookup_mem _ _ _ hlk).1⟩)⟩
            · simp only [normalize_token]
              rw [if_neg hkw, if_neg hty, if_neg hnum, if_pos hid, hlk]
            · rw [hkv]
              exact (slot_facts _ (isSlotTok_mkVarLabel _)).2.2.1
            · rw [hkv]
              exact Or.inr (Or.inr (Or.inr (Or.inl (isSlotTok_mkVarLabel _))))
        · have hop : OpTokStr t := by
            rcases hraw with h | h | h
            · exact absurd h hid
            · exact absurd h hnum
            · exact h
          have hout : OutTok t := Or.inr (Or.inr (Or.inr (Or.inr hop)))
          refine ⟨t, st, ?_, (outTok_facts t hout).1, hout,
            Or.inl ⟨rfl, ?_, fun hi => hid hi.2.2.2⟩⟩
          · simp only [normalize_token]
            rw [if_neg hkw, if_neg hty, if_neg hnum, if_neg hid]
          · cases hst : isSlotTok t
            · rfl
            · exact absurd (slot_facts t hst).1 hid

/-- Master invariant of the token-classification fold: the slot map's
values are exactly the labels issued so far, all emitted tokens have
normalizer output shapes, the first occurrences of emitted slot tokens
beyond the initial labels are the freshly issued labels in order, and the
keys grow by first occurrence of the slotted identifier tokens. -/
lemma slotStep_fold_spec : ∀ (toks out : List String) (st : NormState),
    (∀ t ∈ toks, RawTok t) →
    st.identifier_map.map Prod.snd = varLabels st.var_counter →
    st.var_counter ≤ (toks.foldl slotStep (out, st)).2.var_counter ∧
    (toks.foldl slotStep (out, st)).2.identifier_map.map Prod.snd =
      varLabels (toks.foldl slotStep (out, st)).2.var_counter ∧
    (∃ emitted, (toks.foldl slotStep (out, st)).1 = out ++ emitted ∧
      (∀ u ∈ emitted, OutTok u) ∧
      firstOcc (varLabels st.var_counter) (emitted.filter isSlotTok) =
        (List.range' (st.var_counter + 1)
          ((toks.foldl slotStep (out, st)).2.var_counter - st.var_counter)).map
          mkVarLabel) ∧
    (toks.foldl slotStep (out, st)).2.identifier_map.map Prod.fst =
      st.identifier_map.map Prod.fst ++
        firstOcc (st.identifier_map.map Prod.fst)
          (toks.filter (fun u => decide (IdentSlotted u))) := by
  intro toks
  induction toks with
  | nil =>
    intro out st _ hvals
    refine ⟨le_refl _, hvals, ⟨[], (List.append_nil out).symm, by simp, ?_⟩,
      by simp [firstOcc]⟩
    simp [firstOcc, Nat.sub_self]
  | cons t toks ih =>
    intro out st hraw hvals
    obtain ⟨y, st1, hnt, hyne, hyout, hcase⟩ :=
      normalize_token_cases st t (hraw t (List.mem_cons_self _ _)) hvals
    have hstep : slotStep (out, st) t = (out ++ [y], st1) := by
      show (if (normalize_token st t).1 ≠ "" then
              (out ++ [(normalize_token st t).1], (normalize_token st t).2)
            else (out, (normalize_token st t).2)) = (out ++ [y], st1)
      rw [hnt]
      exact if_pos hyne
    rw [List.foldl_cons, hstep]
    have hrawrest : ∀ u ∈ toks, RawTok u := fun u hu => hraw u (List.mem_cons_of_mem _ hu)
    rcases hcase with ⟨hst1, hys, hti⟩ | ⟨hst1, hyv, hti, htk⟩ |
      ⟨hy, hti, htk, hmapf, hmaps, hcnt1⟩
    · subst hst1
      obtain ⟨ihmono, ihvals, ⟨em, hem, hemout, hfo⟩, ihkeys⟩ :=
        ih (out ++ [y]) st1 hrawrest hvals
      refine ⟨ihmono, ihvals, ⟨y :: em, ?_, ?_, ?_⟩, ?_⟩
      · rw [hem]
        simp
      · intro u hu
        rcases List.mem_cons.1 hu with rfl | hu2
        · exact hyout
        · exact hemout u hu2
      · rw [filter_cons_false _ hys]
        exact hfo
      · rw [filter_cons_false _ (decide_eq_false hti)]
        exact ihkeys
    · subst hst1
      obtain ⟨ihmono, ihvals, ⟨em, hem, hemout, hfo⟩, ihkeys⟩ :=
        ih (out ++ [y]) st1 hrawrest hvals
      have hslot : isSlotTok y = true := by
        obtain ⟨k, _, _, rfl⟩ := mem_varLabels.1 hyv
        exact isSlotTok_mkVarLabel k
      refine ⟨ihmono, ihvals, ⟨y :: em, ?_, ?_, ?_⟩, ?_⟩
      · rw [hem]
        simp
      · intro u hu
        rcases List.mem_cons.1 hu with rfl | hu2
        · exact hyout
        · exact hemout u hu2
      · rw [filter_cons_true _ hslot, firstOcc, if_pos hyv]
        exact hfo
      · rw [filter_cons_true _ (decide_eq_true hti), firstOcc, if_pos htk]
        exact ihkeys
    · subst hy
      have hvals1 : st1.identifier_map.map Prod.snd = varLabels st1.var_counter := by
        rw [hmaps, hvals, hcnt1, varLabels_succ]
      obtain ⟨ihmono, ihvals, ⟨em, hem, hemout, hfo⟩, ihkeys⟩ :=
        ih (out ++ [mkVarLabel (st.var_counter + 1)]) st1 hrawrest hvals1
      rw [hcnt1] at ihmono hfo
      have hcnt : st.var_counter ≤ (toks.foldl slotStep
          (out ++ [mkVarLabel (st.var_counter + 1)], st1)).2.var_counter := by omega
      refine ⟨hcnt, ihvals, ⟨mkVarLabel (st.var_counter + 1) :: em, ?_, ?_, ?_⟩, ?_⟩
      · rw [hem]
        simp
      · intro u hu
        rcases List.mem_cons.1 hu with rfl | hu2
        · exact hyout
        · exact hemout u hu2
      · rw [filter_cons_true _ (isSlotTok_mkVarLabel _), firstOcc,
          if_neg (fresh_label_not_mem st.var_counter)]
        have harith : (toks.foldl slotStep
            (out ++ [mkVarLabel (st.var_counter + 1)], st1)).2.var_counter -
              st.var_counter =
            ((toks.foldl slotStep
              (out ++ [mkVarLabel (st.var_counter + 1)], st1)).2.var_counter -
                (st.var_counter + 1)) + 1 := by omega
        rw [harith, varSeq_cons]
        rw [firstOcc_congr _ (mkVarLabel (st.var_counter + 1) :: varLabels st.var_counter)
          (varLabels (st.var_counter + 1)) (fun x => by
            rw [varLabels_succ, List.mem_cons, List.mem_append, List.mem_singleton]
            tauto)]
        rw [hfo]
      · rw [filter_cons_true _ (decide_eq_true hti), firstOcc, if_neg htk]
        rw [ihkeys, hmapf]
        rw [firstOcc_congr _ (st.identifier_map.map Prod.fst ++ [t])
          (t :: st.identifier_map.map Prod.fst) (fun x => by
            rw [List.mem_cons, List.mem_append, List.mem_singleton]
            tauto)]
        simp

/-- Lookup in a self-paired label map finds the label itself. -/
lemma lookup_pairs_self : ∀ (labels : List String) (t : String), t ∈ labels →
    (labels.map (fun v => (v, v))).lookup t = some t := by
  intro labels
  induction labels with
  | nil =>
    intro t ht
    simp at ht
  | cons l0 ls ih =>
    intro t ht
    rw [List.map_cons]
    cases hbe : (t == l0) with
    | true =>
      simp only [List.lookup, hbe]
      rw [beq_iff_eq] at hbe
      rw [hbe]
    | false =>
      simp only [List.lookup, hbe]
      rw [beq_eq_false_iff_ne] at hbe
      rcases List.mem_cons.1 ht with rfl | h2
      · exact absurd rfl hbe
      · exact ih t h2

/-- Lookup of an unknown key in a self-paired label map fails. -/
lemma lookup_pairs_none : ∀ (labels : List String) (t : String), t ∉ labels →
    (labels.map (fun v => (v, v))).lookup t = none := by
  intro labels
  induction labels with
  | nil => intro t _; rfl
  | cons l0 ls ih =>
    intro t ht
    rw [List.map_cons]
    cases hbe : (t == l0) with
    | true =>
      rw [beq_iff_eq] at hbe
      exact absurd (hbe ▸ List.mem_cons_self _ _) ht
    | false =>
      simp only [List.lookup, hbe]
      exact ih t (fun h2 => ht (List.mem_cons_of_mem _ h2))

/-- The keyword branch of _normalize_token. -/
lemma normalize_token_keyword (st : NormState) (t : String)
    (hkw : strLower t ∈ KEYWORDS) : normalize_token st t = (strLower t, st) := by
  simp only [normalize_token]
  rw [if_pos hkw]

/-- The fall-through branch of _normalize_token. -/
lemma normalize_token_raw (st : NormState) (t : String)
    (hkwf : strLower t ∉ KEYWORDS) (htyf : strLower t ∉ TYPES)
    (hnumf : numberMatch t.data = false) (hidf : identMatch t.data = false) :
    normalize_token st t = (t, st) := by
  simp only [normalize_token]
  rw [if_neg hkwf, if_neg htyf, if_neg (by rw [hnumf]; simp),
    if_neg (by rw [hidf]; simp)]

/-- One emitting step of the classification fold. -/
lemma slotStep_eq (out : List String) (st : NormState) (t y : String)
    (st1 : NormState) (hnt : normalize_token st t = (y, st1)) (hy : y ≠ "") :
    slotStep (out, st) t = (out ++ [y], st1) := by
  show (if (normalize_token st t).1 ≠ "" then
          (out ++ [(normalize_token st t).1], (normalize_token st t).2)
        else (out, (normalize_token st t).2)) = (out ++ [y], st1)
  rw [hnt]
  exact if_pos hy

/-- Pass-two identity: on a state whose slot map sends each of the first n
labels to itself, a token list of normalizer output shapes free of TYPE
and NUM whose fresh slot tokens first occur in label order is reproduced
verbatim by the classification fold. -/
lemma slotStep_fold_id : ∀ (toks out : List String) (st : NormState) (n : ℕ),
    st.identifier_map = (varLabels n).map (fun v => (v, v)) →
    st.var_counter = n →
    (∀ t ∈ toks, OutTok t ∧ t ≠ "TYPE" ∧ t ≠ "NUM") →
    (∃ k, firstOcc (varLabels n) (toks.filter isSlotTok) =
      (List.range' (n + 1) k).map mkVarLabel) →
    (toks.foldl slotStep (out, st)).1 = out ++ toks := by
  intro toks
  induction toks with
  | nil =>
    intro out st n _ _ _ _
    simp
  | cons t toks ih =>
    intro out st n hmap hcnt htoks hfo
    obtain ⟨hout, htype, hnumt⟩ := htoks t (List.mem_cons_self _ _)
    have htoks' : ∀ u ∈ toks, OutTok u ∧ u ≠ "TYPE" ∧ u ≠ "NUM" :=
      fun u hu => htoks u (List.mem_cons_of_mem _ hu)
    have hne : t ≠ "" := (outTok_facts t hout).1
    rcases hout with hkw | hty | hnu | hsl | hop
    · have hlow : strLower t = t := (keywords_facts t hkw).1
      have hkw' : strLower t ∈ KEYWORDS := by rw [hlow]; exact hkw
      have hnt : normalize_token st t = (t, st) := by
        rw [normalize_token_keyword st t hkw', hlow]
      have hfo' : ∃ k, firstOcc (varLabels n) (toks.filter isSlotTok) =
          (List.range' (n + 1) k).map mkVarLabel := by
        rwa [filter_cons_false _ (keywords_facts t hkw).2.2.1] at hfo
      rw [List.foldl_cons, slotStep_eq out st t t st hnt hne,
        ih (out ++ [t]) st n hmap hcnt htoks' hfo']
      simp
    · exact absurd hty htype
    · exact absurd hnu hnumt
    · obtain ⟨hid, _, _, hkwf, htyf, hnumf⟩ := slot_facts t hsl
      by_cases hmem : t ∈ varLabels n
      · have hnt : normalize_token st t = (t, st) := by
          simp only [normalize_token]
          rw [if_neg hkwf, if_neg htyf, if_neg (by rw [hnumf]; simp), if_pos hid,
            hmap, lookup_pairs_self _ _ hmem]
        have hfo' : ∃ k, firstOcc (varLabels n) (toks.filter isSlotTok) =
            (List.range' (n + 1) k).map mkVarLabel := by
          obtain ⟨k, hk⟩ := hfo
          rw [filter_cons_true _ hsl, firstOcc, if_pos hmem] at hk
          exact ⟨k, hk⟩
        rw [List.foldl_cons, slotStep_eq out st t t st hnt hne,
          ih (out ++ [t]) st n hmap hcnt htoks' hfo']
        simp
      · obtain ⟨k, hk⟩ := hfo
        rw [filter_cons_true _ hsl, firstOcc, if_neg hmem] at hk
        cases k with
        | zero => simp at hk
        | succ k =>
          rw [varSeq_cons] at hk
          have hk1 : t = mkVarLabel (n + 1) := by
            have := congrArg (fun l => l.headI) hk
            simpa using this
          have hk2 : firstOcc (t :: varLabels n) (toks.filter isSlotTok) =
              (List.range' (n + 1 + 1) k).map mkVarLabel := by
            have := congrArg List.tail hk
            simpa using this
          have hnt : normalize_token st t = (mkVarLabel (st.var_counter + 1),
              { st with var_counter := st.var_counter + 1,
                        identifier_map := (varLabels n).map (fun v => (v, v)) ++
                          [(t, mkVarLabel (st.var_counter + 1))] }) := by
            simp only [normalize_token]
            rw [if_neg hkwf, if_neg htyf, if_neg (by rw [hnumf]; simp), if_pos hid,
              hmap, lookup_pairs_none _ _ hmem]
          rw [hcnt] at hnt
          have hmap1 : (varLabels n).map (fun v => (v, v)) ++
              [(t, mkVarLabel (n + 1))] = (varLabels (n + 1)).map (fun v => (v, v)) := by
            rw [hk1, varLabels_succ, List.map_append]
            rfl
          have hfo' : ∃ k', firstOcc (varLabels (n + 1)) (toks.filter isSlotTok) =
              (List.range' (n + 1 + 1) k').map mkVarLabel := by
            refine ⟨k, ?_⟩
            rw [firstOcc_congr _ (varLabels (n + 1)) (t :: varLabels n) (fun x => by
              rw [hk1, varLabels_succ, List.mem_cons, List.mem_append,
                List.mem_singleton]
              tauto)]
            exact hk2
          rw [List.foldl_cons, slotStep_eq out st t (mkVarLabel (n + 1)) _ hnt
            (by rw [← hk1]; exact hne)]
          rw [ih (out ++ [mkVarLabel (n + 1)]) _ (n + 1) hmap1 rfl htoks' hfo']
          rw [← hk1]
          simp
    · rcases hop with hmul | ⟨c, hc1, hc2⟩
      · have hf := multiops_facts t.data hmul
        have hlow : strLower t = t := hf.1
        have hkwf : strLower t ∉ KEYWORDS := by rw [hlow]; exact hf.2.1
        have htyf : strLower t ∉ TYPES := by rw [hlow]; exact hf.2.2.1
        have hnumf : numberMatch t.data = false := hf.2.2.2.1
        have hidf : identMatch t.data = false := hf.2.2.2.2.1
        have hslf : isSlotTok t = false := hf.2.2.2.2.2.1
        have hnt := normalize_token_raw st t hkwf htyf hnumf hidf
        have hfo' : ∃ k, firstOcc (varLabels n) (toks.filter isSlotTok) =
            (List.range' (n + 1) k).map mkVarLabel := by
          rwa [filter_cons_false _ hslf] at hfo
        rw [List.foldl_cons, slotStep_eq out st t t st hnt hne,
          ih (out ++ [t]) st n hmap hcnt htoks' hfo']
        simp
      · have hf := singles_facts c (by simpa using hc2)
        have ht : t = String.mk [c] := by
          cases t
          exact congrArg String.mk hc1
        have hlow : strLower t = t := by rw [ht]; exact hf.1
        have hkwf : strLower t ∉ KEYWORDS := by rw [hlow, ht]; exact hf.2.1
        have htyf : strLower t ∉ TYPES := by rw [hlow, ht]; exact hf.2.2.1
        have hnumf : numberMatch t.data = false := by rw [hc1]; exact hf.2.2.2.1
        have hidf : identMatch t.data = false := by rw [hc1]; exact hf.2.2.2.2.1
        have hslf : isSlotTok t = false := by rw [ht]; exact hf.2.2.2.2.2.1
        have hnt := normalize_token_raw st t hkwf htyf hnumf hidf
        have hfo' : ∃ k, firstOcc (varLabels n) (toks.filter isSlotTok) =
            (List.range' (n + 1) k).map mkVarLabel := by
          rwa [filter_cons_false _ hslf] at hfo
        rw [List.foldl_cons, slotStep_eq out st t t st hnt hne,
          ih (out ++ [t]) st n hmap hcnt htoks' hfo']
        simp

/-- Specification of one full normalization run started from the reset
state: every output token is a normalizer shape, the slot tokens first
occur in label order VAR1, VAR2, ..., the slot map's values are exactly
the issued labels, and its keys are the slotted identifiers in order of
first appearance. -/
lemma normalize_tokens_spec (st : NormState) (c : String) :
    (∀ u ∈ (normalize_to_tokens (reset_counters st) c).1, OutTok u) ∧
    firstOcc [] ((normalize_to_tokens (reset_counters st) c).1.filter isSlotTok) =
      varLabels (normalize_to_tokens (reset_counters st) c).2.var_counter ∧
    (normalize_to_tokens (reset_counters st) c).2.identifier_map.map Prod.snd =
      varLabels (normalize_to_tokens (reset_counters st) c).2.var_counter ∧
    (normalize_to_tokens (reset_counters st) c).2.identifier_map.map Prod.fst =
      firstOcc [] ((rawTokens c).filter (fun u => decide (IdentSlotted u))) := by
  obtain ⟨hmono, hvals, ⟨em, hem, hout, hfo⟩, hkeys⟩ :=
    slotStep_fold_spec (rawTokens c) [] (reset_counters st) (rawTokens_shapes c) rfl
  rw [normalize_to_tokens, slotifyTokens_eq]
  rw [List.nil_append] at hem
  refine ⟨?_, ?_, hvals, ?_⟩
  · rw [hem]
    exact hout
  · rw [hem]
    exact hfo
  · exact hkeys

/-- Closed-form characterization of the bias engine at the default
configuration: which rules fire, in which order, and the resulting score. -/
lemma bias_spec (l s se raw : ℚ) :
    apply_student_safe_bias STUDENT_SAFE_CONFIG l s se raw =
      (max 0 (min 100 (raw
          - (if l > 70 ∧ s < 50 ∧ se < 50 then 15 else 0)
          + (if s ≥ 85 ∧ se ≥ 85 then 5 else 0)
          - (if 25 < scoreVariance l s se then 10 else 0))),
       (if l > 70 ∧ s < 50 ∧ se < 50 then [Adjustment.lexicalOnly] else []) ++
       (if s ≥ 85 ∧ se ≥ 85 then [Adjustment.agreement] else []) ++
       (if 25 < scoreVariance l s se then [Adjustment.uncertainty] else [])) := by
  have h5 : ((5 : ℚ)) ^ 2 = 25 := by norm_num
  simp only [apply_student_safe_bias, STUDENT_SAFE_CONFIG, stdGt]
  norm_num [h5]
  split_ifs <;> simp_all

/-- C4: the fusion engine applies the three bias rules in the fixed order
lexical-only penalty (fires iff lexical > 70 ∧ structural < 50 ∧
semantic < 50, subtracting 15), agreement boost (fires iff structural ≥ 85
∧ semantic ≥ 85, adding 5), uncertainty penalty (fires iff the population
standard deviation of the three signals exceeds 5.0, i.e. the population
variance exceeds 25, subtracting 10); every condition reads the original
three signal values, and the adjustment log lists exactly the rules that
fired, in that order. -/
theorem c4_bias_rules_fixed_order (l s se raw : ℚ) :
    apply_student_safe_bias STUDENT_SAFE_CONFIG l s se raw =
      (max 0 (min 100 (raw
          - (if l > 70 ∧ s < 50 ∧ se < 50 then 15 else 0)
          + (if s ≥ 85 ∧ se ≥ 85 then 5 else 0)
          - (if 25 < scoreVariance l s se then 10 else 0))),
       (if l > 70 ∧ s < 50 ∧ se < 50 then [Adjustment.lexicalOnly] else []) ++
       (if s ≥ 85 ∧ se ≥ 85 then [Adjustment.agreement] else []) ++
       (if 25 < scoreVariance l s se then [Adjustment.uncertainty] else [])) :=
  bias_spec l s se raw

/-- C10: under the default configuration the lexical-only penalty
(structural < 50) and the agreement boost (structural ≥ 85) never fire
together, so the adjustment log never holds more than two entries. -/
theorem c10_penalty_boost_exclusive (l s se raw : ℚ) :
    ¬((l > 70 ∧ s < 50 ∧ se < 50) ∧ (s ≥ 85 ∧ se ≥ 85)) ∧
    (apply_student_safe_bias STUDENT_SAFE_CONFIG l s se raw).2.length ≤ 2 := by
  constructor
  · rintro ⟨⟨-, hs, -⟩, hs85, -⟩
    linarith
  · rw [bias_spec]
    by_cases h1 : l > 70 ∧ s < 50 ∧ se < 50 <;>
      by_cases h2 : s ≥ 85 ∧ se ≥ 85 <;>
      by_cases h3 : 25 < scoreVariance l s se <;>
      simp [h1, h2, h3]
    obtain ⟨-, hs, -⟩ := h1
    obtain ⟨hs85, -⟩ := h2
    linarith

/-- C5: severity classification is inclusive at the lower threshold:
score ≥ 90 is severe, 60 ≤ score < 90 is partial, score < 60 is clean. -/
theorem c5_severity_boundaries (s : ℚ) :
    (s ≥ 90 → classify_severity s = "severe") ∧
    (60 ≤ s ∧ s < 90 → classify_severity s = "partial") ∧
    (s < 60 → classify_severity s = "clean") := by
  refine ⟨fun h => ?_, fun h => ?_, fun h => ?_⟩ <;>
    simp only [classify_severity, SEVERE_THRESHOLD, PARTIAL_THRESHOLD] <;>
    split_ifs <;> first | rfl | linarith [h]

/-- Witness for C5 at the boundary inputs from the spec:
Severity(90.0) = severe, Severity(89.999) = partial, Severity(60.0) = partial,
Severity(59.999) = clean. -/
theorem c5_severity_boundaries_witness :
    classify_severity 90 = "severe" ∧
    classify_severity (89999/1000) = "partial" ∧
    classify_severity 60 = "partial" ∧
    classify_severity (59999/1000) = "clean" :=
  ⟨(c5_severity_boundaries 90).1 (by norm_num),
   (c5_severity_boundaries (89999/1000)).2.1 (by norm_num),
   (c5_severity_boundaries 60).2.1 (by norm_num),
   (c5_severity_boundaries (59999/1000)).2.2 (by norm_num)⟩

/-- C3 (counterexample to the original claim): normalization is not
idempotent in general.  On "int x" the first pass yields "TYPE VAR1", and
re-normalizing maps the meta-token TYPE (which is neither a keyword nor a
type keyword in lowercase form) to a fresh slot, yielding "VAR1 VAR2". -/
theorem c3_counterexample :
    (TokenNormalizer.normalize ⟨[], 0, 0, 0⟩
        ((TokenNormalizer.normalize ⟨[], 0, 0, 0⟩ "int x").1)).1 ≠
      (TokenNormalizer.normalize ⟨[], 0, 0, 0⟩ "int x").1 := by decide

/-- C3 (amended): normalization is idempotent on every input whose
normalized token stream contains no TYPE and no NUM meta-token;
re-normalizing such output (from any normalizer states, which are reset
per run) reproduces it verbatim. -/
theorem c3_normalize_idempotent_no_type_num (st st' : NormState) (c : String)
    (h1 : "TYPE" ∉ (normalize_to_tokens (reset_counters st) c).1)
    (h2 : "NUM" ∉ (normalize_to_tokens (reset_counters st) c).1) :
    (TokenNormalizer.normalize st' ((TokenNormalizer.normalize st c).1)).1 =
      (TokenNormalizer.normalize st c).1 := by
  obtain ⟨hout, hfo, hvals, hkeys⟩ := normalize_tokens_spec st c
  have hjoin : (TokenNormalizer.normalize st c).1 =
      String.mk (spaceJoinChars
        ((normalize_to_tokens (reset_counters st) c).1.map String.data)) := rfl
  have hraw2 : rawTokens (TokenNormalizer.normalize st c).1 =
      (normalize_to_tokens (reset_counters st) c).1 := by
    rw [hjoin]
    exact rawTokens_join _ hout
  show (String.mk (spaceJoinChars
      ((normalize_to_tokens (reset_counters st')
        ((TokenNormalizer.normalize st c).1)).1.map String.data))) = _
  have hid : (normalize_to_tokens (reset_counters st')
      ((TokenNormalizer.normalize st c).1)).1 =
      (normalize_to_tokens (reset_counters st) c).1 := by
    rw [normalize_to_tokens, slotifyTokens_eq, hraw2]
    have hrun := slotStep_fold_id (normalize_to_tokens (reset_counters st) c).1 []
      (reset_counters st') 0 rfl rfl
      (fun u hu => ⟨hout u hu, fun he => h1 (he ▸ hu), fun he => h2 (he ▸ hu)⟩)
      ⟨(normalize_to_tokens (reset_counters st) c).2.var_counter, hfo⟩
    rw [hrun]
    exact List.nil_append _
  rw [hid]
  exact hjoin.symm

/-- C3 witness: a program with no type keywords and no number literals,
on which the amended idempotence theorem applies concretely. -/
theorem c3_normalize_idempotent_no_type_num_witness :
    ("TYPE" ∉ (normalize_to_tokens (reset_counters ⟨[], 0, 0, 0⟩)
        "def foo ( x ) : return x").1 ∧
     "NUM" ∉ (normalize_to_tokens (reset_counters ⟨[], 0, 0, 0⟩)
        "def foo ( x ) : return x").1) ∧
    (TokenNormalizer.normalize ⟨[], 0, 0, 0⟩
        ((TokenNormalizer.normalize ⟨[], 0, 0, 0⟩ "def foo ( x ) : return x").1)).1 =
      (TokenNormalizer.normalize ⟨[], 0, 0, 0⟩ "def foo ( x ) : return x").1 :=
  ⟨⟨by decide, by decide⟩,
   c3_normalize_idempotent_no_type_num ⟨[], 0, 0, 0⟩ ⟨[], 0, 0, 0⟩
     "def foo ( x ) : return x" (by decide) (by decide)⟩

/-- C9: the identifier slot map's scope is exactly one normalize()
invocation: the run starts from the reset state, so the result is
independent of the incoming normalizer state; the final map's keys are
exactly the slotted identifier tokens in order of first appearance, and
its values are exactly the labels VAR1, ..., VARn in issue order —
strictly increasing, hence unique. -/
theorem c9_slot_map_per_invocation (st st' : NormState) (c : String) :
    TokenNormalizer.normalize st c = TokenNormalizer.normalize st' c ∧
    (TokenNormalizer.normalize st c).2.identifier_map.map Prod.fst =
      firstOcc [] ((rawTokens c).filter (fun u => decide (IdentSlotted u))) ∧
    (TokenNormalizer.normalize st c).2.identifier_map.map Prod.snd =
      varLabels (TokenNormalizer.normalize st c).2.var_counter ∧
    ((TokenNormalizer.normalize st c).2.identifier_map.map Prod.snd).Nodup := by
  obtain ⟨hout, hfo, hvals, hkeys⟩ := normalize_tokens_spec st c
  refine ⟨rfl, hkeys, hvals, ?_⟩
  have hnd : ((TokenNormalizer.normalize st c).2.identifier_map.map Prod.snd) =
      varLabels (TokenNormalizer.normalize st c).2.var_counter := hvals
  rw [hnd, varLabels]
  exact List.Nodup.map (fun a b h => mkVarLabel_inj a b h)
    (List.nodup_range' _ _)

end Plag
